import Mathlib

/-!
Verification of the markup/formatting-run codec of the PPT-Assistant
repository (files `markdown_processor.py`, `html_processor.py`,
`slide_context_reader.py`).

The Python code is shallowly embedded over `List Char`.  Pure string
manipulation is translated function by function; the PowerPoint COM
target is modelled as a trace of styling calls (`TargetCall`), and the
stdlib `html.parser` tokenizer — which is not part of the repository —
is abstracted as a stream of `HtmlEvent`s fed to the repository's
`handle_starttag` / `handle_endtag` / `handle_data` handlers.
Python-level recursion in `parse_markdown_text` is rendered with an
explicit fuel parameter; `parseMdGo_stable` proves the fuel bound is
never the deciding factor, i.e. the recursion is genuinely total.
-/

set_option maxRecDepth 8000

abbrev Chars := List Char

/-- Model of Python's whitespace class (the characters relevant to this
code are ASCII); used both for `str.strip` and for the regex class `\s`,
which agree on these characters. -/
def pySpace (c : Char) : Bool :=
  (c == ' ') || (c == '\t') || (c == '\n') || (c == '\r') || (c == '\x0b') || (c == '\x0c')

/-- Python `str.lstrip()`. -/
def pyLstrip (l : Chars) : Chars := l.dropWhile pySpace

/-- Python `str.rstrip()`. -/
def pyRstrip (l : Chars) : Chars := (l.reverse.dropWhile pySpace).reverse

/-- Python `str.strip()`. -/
def pyStrip (l : Chars) : Chars := pyRstrip (pyLstrip l)

/-- Character-wise lowercasing, modelling Python `str.lower()` on the
ASCII range. -/
def toLowerStr (l : Chars) : Chars := l.map Char.toLower

/-- Python `s.split(sep)` for a single-character separator: empty pieces
are kept, and the empty string splits to one empty piece. -/
def splitOnCh (sep : Char) : Chars → List Chars
  | [] => [[]]
  | c :: cs =>
    if c == sep then [] :: splitOnCh sep cs
    else
      match splitOnCh sep cs with
      | [] => [[c]]
      | h :: t => (c :: h) :: t

/-- Python `'\n'.join(pieces)`. -/
def joinNl : List Chars → Chars
  | [] => []
  | [l] => l
  | l :: ls => l ++ '\n' :: joinNl ls

/-- Python substring containment `needle in hay`. -/
def containsSub (needle : Chars) : Chars → Bool
  | [] => needle.isEmpty
  | c :: cs => needle.isPrefixOf (c :: cs) || containsSub needle cs

/-- Python `prop.split(':', 1)` when a colon is present: the part before
the first colon and the part after it. -/
def splitColon1 (l : Chars) : Option (Chars × Chars) :=
  let k := l.takeWhile (fun c => c != ':')
  if k.length = l.length then none else some (k, l.drop (k.length + 1))

/-- Hex-digit test, as accepted by Python `int(s, 16)` digit-wise. -/
def isHexDigitCh (c : Char) : Bool :=
  c.isDigit || ('a' ≤ c && c ≤ 'f') || ('A' ≤ c && c ≤ 'F')

def hexDigitVal (c : Char) : Nat :=
  if c.isDigit then c.toNat - '0'.toNat
  else if 'a' ≤ c && c ≤ 'f' then c.toNat - 'a'.toNat + 10
  else c.toNat - 'A'.toNat + 10

/-- Value of a hex-digit string, modelling `int(s, 16)` on plain
hex-digit input (sign/underscore forms never arise in this code). -/
def hexVal (l : Chars) : Nat := l.foldl (fun n c => n * 16 + hexDigitVal c) 0

/-- Lowercase hex digit, as produced by Python's `%02x` format. -/
def hexDigitChar (n : Nat) : Char :=
  if n < 10 then Char.ofNat ('0'.toNat + n) else Char.ofNat ('a'.toNat + (n - 10))

/-- Two lowercase hex digits for a byte, Python `f"{n:02x}"` for `n < 256`. -/
def hexByte (n : Nat) : Chars := [hexDigitChar (n / 16), hexDigitChar (n % 16)]

/-- Decimal digit string to number, Python `int(s)` for digit strings. -/
def natOfDigits (l : Chars) : Nat := l.foldl (fun n c => n * 10 + (c.toNat - '0'.toNat)) 0

/-- The formatting dictionary attached to a run.  Python only ever
stores `True` under the boolean keys, so a `false` field means the key
is absent; `none` likewise means the key is absent. -/
structure Fmt where
  bold : Bool := false
  italic : Bool := false
  underline : Bool := false
  strikethrough : Bool := false
  color : Option Chars := none
  background_color : Option Chars := none
  header : Option Nat := none
deriving DecidableEq

/-- Python truthiness of the formatting dict (`if not segment['formatting']`). -/
def Fmt.isEmpty (f : Fmt) : Bool :=
  !f.bold && !f.italic && !f.underline && !f.strikethrough &&
    f.color.isNone && f.background_color.isNone && f.header.isNone

/-- Python `dict.update`: fields present in `b` overwrite those of `a`. -/
def Fmt.update (a b : Fmt) : Fmt where
  bold := b.bold || a.bold
  italic := b.italic || a.italic
  underline := b.underline || a.underline
  strikethrough := b.strikethrough || a.strikethrough
  color := b.color.orElse (fun _ => a.color)
  background_color := b.background_color.orElse (fun _ => a.background_color)
  header := b.header.orElse (fun _ => a.header)

/-- One formatting segment: `{'start': …, 'length': …, 'formatting': …}`. -/
structure Seg where
  start : Nat
  length : Nat
  formatting : Fmt
deriving DecidableEq

/-- Stable insertion of a segment in front of the first element whose
`start` is not smaller. -/
def insertByStart (s : Seg) : List Seg → List Seg
  | [] => [s]
  | t :: ts => if t.start < s.start then t :: insertByStart s ts else s :: t :: ts

/-- Model of Python's stable `segments.sort(key=lambda x: x['start'])`:
a stable sort is uniquely determined by the key, so stable insertion
sort computes the same list as Python's sort. -/
def sortSegs : List Seg → List Seg
  | [] => []
  | s :: ss => insertByStart s (sortSegs ss)

theorem mem_insertByStart {x s : Seg} {l : List Seg} :
    x ∈ insertByStart s l ↔ x = s ∨ x ∈ l := by
  induction l with
  | nil => simp [insertByStart]
  | cons t ts ih =>
    by_cases h : t.start < s.start
    · simp only [insertByStart, if_pos h, List.mem_cons, ih]
      tauto
    · simp only [insertByStart, if_neg h, List.mem_cons]

theorem mem_sortSegs {x : Seg} {l : List Seg} : x ∈ sortSegs l ↔ x ∈ l := by
  induction l with
  | nil => simp [sortSegs]
  | cons s ss ih => simp [sortSegs, mem_insertByStart, ih]

/-! ## The HTML dialect: `html_processor.PowerPointHTMLParser`

The stdlib tokenizer is outside the repository; the repository's
handler methods receive a stream of already-lexed events (tag and
attribute names lowercased, as `html.parser` delivers them). -/

inductive HtmlEvent where
  | startTag (tag : Chars) (attrs : List (Chars × Chars))
  | endTag (tag : Chars)
  | data (s : Chars)
deriving DecidableEq

/-- `PowerPointHTMLParser._parse_style`: parse a CSS-like
semicolon-separated `key: value` declaration list. -/
def parseStyleAttr (style_str : Chars) : Fmt :=
  let props := ((splitOnCh ';' style_str).map pyStrip).filter (fun p => p ≠ [])
  props.foldl (fun fmt prop =>
    match splitColon1 prop with
    | none => fmt
    | some (k0, v0) =>
      let key := toLowerStr (pyStrip k0)
      let v := pyStrip v0
      if key = "color".data then { fmt with color := some v }
      else if key = "background-color".data ∨ key = "background".data then
        { fmt with background_color := some v }
      else if key = "font-weight".data ∧ v = "bold".data then { fmt with bold := true }
      else if key = "font-style".data ∧ v = "italic".data then { fmt with italic := true }
      else if key = "text-decoration".data then
        let fmt2 := if containsSub "underline".data v then { fmt with underline := true } else fmt
        if containsSub "line-through".data v then { fmt2 with strikethrough := true } else fmt2
      else fmt) {}

/-- Header-tag test from `handle_starttag`:
`tag.startswith('h') and len(tag) == 2 and tag[1].isdigit()`. -/
def isHeaderTag (tag : Chars) : Bool :=
  match tag with
  | ['h', d] => d.isDigit
  | _ => false

def headerTagLevel (tag : Chars) : Nat :=
  match tag with
  | [_, d] => d.toNat - '0'.toNat
  | _ => 0

/-- The formatting computed by `handle_starttag` for a tag. -/
def startTagFmt (tag : Chars) (attrs : List (Chars × Chars)) : Fmt :=
  if tag = "b".data ∨ tag = "strong".data then { bold := true }
  else if tag = "i".data ∨ tag = "em".data then { italic := true }
  else if tag = "u".data then { underline := true }
  else if tag = "s".data ∨ tag = "strike".data ∨ tag = "del".data then { strikethrough := true }
  else if tag = "span".data then
    attrs.foldl (fun fmt p =>
      if p.1 = "style".data then Fmt.update fmt (parseStyleAttr p.2)
      else if p.1 = "color".data then { fmt with color := some p.2 }
      else fmt) {}
  else if isHeaderTag tag then { header := some (headerTagLevel tag) }
  else {}

structure TagEntry where
  tag : Chars
  start_position : Nat
  formatting : Fmt
deriving DecidableEq

/-- `handle_endtag`'s stack scan: find the nearest entry (from the top)
with the given tag and remove it, returning it with the rest of the
stack.  The head of the list is the top of the stack. -/
def popTag (tag : Chars) : List TagEntry → Option (TagEntry × List TagEntry)
  | [] => none
  | e :: es =>
    if e.tag = tag then some (e, es)
    else
      match popTag tag es with
      | some (f, rest) => some (f, e :: rest)
      | none => none

structure HtmlParserState where
  plain_text : Chars
  format_segments : List Seg
  tag_stack : List TagEntry
  current_position : Nat
deriving DecidableEq

def initHtmlState : HtmlParserState := ⟨[], [], [], 0⟩

/-- One event through the `handle_starttag` / `handle_endtag` /
`handle_data` methods of `PowerPointHTMLParser`. -/
def stepEvent (st : HtmlParserState) : HtmlEvent → HtmlParserState
  | .startTag tag attrs =>
    { st with tag_stack := ⟨tag, st.current_position, startTagFmt tag attrs⟩ :: st.tag_stack }
  | .endTag tag =>
    match popTag tag st.tag_stack with
    | none => st
    | some (e, rest) =>
      if e.start_position < st.current_position then
        { st with
          tag_stack := rest
          format_segments := st.format_segments ++
            [⟨e.start_position + 1, st.current_position - e.start_position, e.formatting⟩] }
      else { st with tag_stack := rest }
  | .data s =>
    { st with plain_text := st.plain_text ++ s, current_position := st.current_position + s.length }

def runEvents (evs : List HtmlEvent) : HtmlParserState := evs.foldl stepEvent initHtmlState

/-- `html_processor.parse_html_text`.  `lexed = none` models the
tokenizer (`parser.feed` / `parser.close`) raising, in which case the
function returns the input text with no runs. -/
def parse_html_text (lexed : Option (List HtmlEvent)) (html_text : Chars) : Chars × List Seg :=
  match lexed with
  | none => (html_text, [])
  | some evs =>
    let st := runEvents evs
    (st.plain_text, sortSegs st.format_segments)

/-! ## The Markdown dialect: `markdown_processor.parse_markdown_text`

Each regex of the pattern table is rendered as a hand-rolled scanner
with the exact matching semantics of the Python pattern on the inputs
it is applied to (`re.finditer`: leftmost non-overlapping matches,
resuming after each match, advancing one character on failure).  The
scanners take a fuel argument so that they are structurally recursive;
fuel equal to the length of the scanned text is always sufficient since
every step consumes at least one character. -/

structure MdMatch where
  s : Nat
  e : Nat
  g1 : Chars
  g2 : Chars
deriving DecidableEq

/-- First index at which `needle` occurs in the list, if any
(the lazy `(.*?)` of the patterns stops at the first occurrence of the
literal that follows it). -/
def findSub (needle : Chars) : Chars → Option Nat
  | [] => if needle = [] then some 0 else none
  | c :: cs =>
    if needle.isPrefixOf (c :: cs) then some 0
    else (findSub needle cs).map (fun i => i + 1)

/-- Match `opn(.*?)cls` at the start of `t` (DOTALL): the literal `opn`,
then the shortest run of characters followed by the literal `cls`.
Returns the captured group and the total match length. -/
def matchDelimAt (opn cls t : Chars) : Option (Chars × Nat) :=
  if opn.isPrefixOf t then
    match findSub cls (t.drop opn.length) with
    | some idx => some ((t.drop opn.length).take idx, opn.length + idx + cls.length)
    | none => none
  else none

/-- Match a color/background block `opnPre([^}]+)}(.*?)cls` at the start
of `t`: the literal prefix (`{color:` or `{bg:`), a non-empty greedy run
of non-`}` characters, the closing `}`, then the lazy body up to the
literal `cls`.  Returns both groups and the total match length. -/
def matchBlockAt (opnPre cls t : Chars) : Option (Chars × Chars × Nat) :=
  if opnPre.isPrefixOf t then
    let r1 := t.drop opnPre.length
    let g1 := r1.takeWhile (fun c => c != '\x7d')
    if g1 = [] then none
    else
      match r1.drop g1.length with
      | [] => none
      | _ :: r2 =>
        match findSub cls r2 with
        | some idx => some (g1, r2.take idx, opnPre.length + g1.length + 1 + idx + cls.length)
        | none => none
  else none

/-- Match the italic pattern `(?<!d)d([^d]+?)d(?!d)` at the start of
`t`, where `prev` is the character just before `t` in the full text
(for the negative lookbehind). -/
def matchItalicAt (d : Char) (prev : Option Char) (t : Chars) : Option (Chars × Nat) :=
  match t with
  | [] => none
  | c :: r =>
    if c = d ∧ prev ≠ some d then
      let g1 := r.takeWhile (fun x => x != d)
      if g1 = [] then none
      else
        match r.drop g1.length with
        | [] => none
        | _ :: rest =>
          match rest with
          | [] => some (g1, g1.length + 2)
          | x :: _ => if x = d then none else some (g1, g1.length + 2)
    else none

def scanDelimF (opn cls : Chars) : Nat → Chars → Nat → List MdMatch
  | 0, _, _ => []
  | _ + 1, [], _ => []
  | fuel + 1, c :: rest, p =>
    match matchDelimAt opn cls (c :: rest) with
    | some (g1, len) =>
      ⟨p, p + len, g1, []⟩ :: scanDelimF opn cls fuel ((c :: rest).drop len) (p + len)
    | none => scanDelimF opn cls fuel rest (p + 1)

/-- `re.finditer` for the `opn(.*?)cls` patterns. -/
def scanDelim (opn cls t : Chars) : List MdMatch := scanDelimF opn cls t.length t 0

def scanBlockF (opnPre cls : Chars) : Nat → Chars → Nat → List MdMatch
  | 0, _, _ => []
  | _ + 1, [], _ => []
  | fuel + 1, c :: rest, p =>
    match matchBlockAt opnPre cls (c :: rest) with
    | some (g1, g2, len) =>
      ⟨p, p + len, g1, g2⟩ :: scanBlockF opnPre cls fuel ((c :: rest).drop len) (p + len)
    | none => scanBlockF opnPre cls fuel rest (p + 1)

/-- `re.finditer` for the color/background block patterns. -/
def scanBlock (opnPre cls t : Chars) : List MdMatch := scanBlockF opnPre cls t.length t 0

def scanItalicF (d : Char) : Nat → Option Char → Chars → Nat → List MdMatch
  | 0, _, _, _ => []
  | _ + 1, _, [], _ => []
  | fuel + 1, prev, c :: rest, p =>
    match matchItalicAt d prev (c :: rest) with
    | some (g1, len) =>
      ⟨p, p + len, g1, []⟩ :: scanItalicF d fuel (some d) ((c :: rest).drop len) (p + len)
    | none => scanItalicF d fuel (some c) rest (p + 1)

/-- `re.finditer` for the italic patterns (the character before the
resume position is the closing delimiter after a match, and the skipped
character on failure). -/
def scanItalic (d : Char) (t : Chars) : List MdMatch := scanItalicF d t.length none t 0

/-- The body of `for match in reversed(matches)`: the replacement text
and new segments contributed by each match are given by `out`; the
matches are applied right to left so that the recorded offsets stay
valid, and segments are appended in that processing order. -/
def passRe (out : MdMatch → Chars × List Seg) : List MdMatch → Chars → Chars × List Seg
  | [], plain => (plain, [])
  | m :: ms, plain =>
    let pr := passRe out ms plain
    let o := out m
    (pr.1.take m.s ++ o.1 ++ pr.1.drop m.e, pr.2 ++ o.2)

/-- A plain-formatting pass: each match is replaced by its captured
content, and a segment is recorded only when the content is non-empty
(`if content:`). -/
def passSimple (fmt : Fmt) : List MdMatch → Chars → Chars × List Seg :=
  passRe (fun m => (m.g1, if m.g1 = [] then [] else [⟨m.s + 1, m.g1.length, fmt⟩]))

/-- A color/background pass: the body is re-parsed recursively (`rec`),
the block is replaced by the nested plain text, a segment spanning the
nested plain text carries the color/background value, and the nested
segments are re-based onto the match start.  No emptiness guard exists
on this path in the source. -/
def passBlock (mkFmt : Chars → Fmt) (rec : Chars → Chars × List Seg) :
    List MdMatch → Chars → Chars × List Seg :=
  passRe (fun m =>
    let n := rec m.g2
    (n.1, ⟨m.s + 1, n.1.length, mkFmt m.g1⟩ ::
      n.2.map (fun ns => ⟨m.s + ns.start, ns.length, ns.formatting⟩)))

/-- One entry of the `patterns` table of `parse_markdown_text`. -/
inductive MdPass where
  | blockPass (opnPre cls : Chars) (mk : Chars → Fmt)
  | simplePass (opn cls : Chars) (fmt : Fmt)
  | italicPass (d : Char) (fmt : Fmt)

/-- Run one pattern of the table against the current plain text:
collect its matches on that text, then process them in reverse. -/
def runPass (rec : Chars → Chars × List Seg) (plain : Chars) : MdPass → Chars × List Seg
  | .blockPass opnPre cls mk => passBlock mk rec (scanBlock opnPre cls plain) plain
  | .simplePass opn cls fmt => passSimple fmt (scanDelim opn cls plain) plain
  | .italicPass d fmt => passSimple fmt (scanItalic d plain) plain

/-- The `for pattern, base_formatting in patterns` loop: each pass sees
the plain text left by the previous one, and segments accumulate in
pass order. -/
def runPasses (rec : Chars → Chars × List Seg) :
    List MdPass → Chars → Chars × List Seg
  | [], plain => (plain, [])
  | p :: ps, plain =>
    let r := runPass rec plain p
    let rest := runPasses rec ps r.1
    (rest.1, r.2 ++ rest.2)

/-- The `patterns` table of `parse_markdown_text`, in source order. -/
def mdPatternTable : List MdPass :=
  [.blockPass "\x7bcolor:".data "\x7b/color\x7d".data (fun v => { color := some v }),
   .blockPass "\x7bbg:".data "\x7b/bg\x7d".data (fun v => { background_color := some v }),
   .simplePass "**".data "**".data { bold := true },
   .simplePass "__".data "__".data { bold := true },
   .italicPass '*' { italic := true },
   .italicPass '_' { italic := true },
   .simplePass "~~".data "~~".data { strikethrough := true },
   .simplePass "[u]".data "[/u]".data { underline := true }]

/-- `parse_markdown_text`, with explicit fuel for the Python-level
recursion on nested color/background content.  The eight passes run in
the source's order on the current plain text, and the collected
segments are stably sorted by `start` at the end. -/
def parseMdGo : Nat → Chars → Chars × List Seg
  | 0, t => (t, [])
  | fuel + 1, t =>
    let r := runPasses (parseMdGo fuel) mdPatternTable t
    (r.1, sortSegs r.2)

/-- `markdown_processor.parse_markdown_text`: nested content is a
strict substring of the current text, so one unit of fuel per character
of the input is always enough (`parseMdGo_stable` below). -/
def parse_markdown_text (t : Chars) : Chars × List Seg := parseMdGo (t.length + 1) t

/-! ## Block-structure transformers -/

/-- The bullet prefix written by `process_markdown_lists` (the source
file literally contains this three-character sequence). -/
def bulletGlyph : Chars := "â€¢".data

/-- Test for the outer numbered-list regex `^\d+\.\s` against a line. -/
def matchNumberedOuter (l : Chars) : Bool :=
  let ds := l.takeWhile Char.isDigit
  if ds.isEmpty then false
  else
    match l.drop ds.length with
    | '.' :: w :: _ => pySpace w
    | _ => false

/-- The inner numbered-list regex `^(\d+)\.\s(.+)` (on a line, so no
newline is present): the digit group and the content group. -/
def matchNumberedInner (l : Chars) : Option (Chars × Chars) :=
  let ds := l.takeWhile Char.isDigit
  if ds.isEmpty then none
  else
    match l.drop ds.length with
    | '.' :: w :: rest => if pySpace w ∧ rest ≠ [] then some (ds, rest) else none
    | _ => none

/-- `(len(line) - len(line.lstrip())) // 2`. -/
def indentLevel (line : Chars) : Nat := (line.takeWhile pySpace).length / 2

/-- A `list_info` entry of `process_markdown_lists` / `process_html_lists`. -/
inductive BlockAnnot where
  | bullet (line : Nat) (indent_level : Nat)
  | numbered (line : Nat) (number : Nat) (indent_level : Nat)
  | headerNote (line : Nat) (level : Nat)
deriving DecidableEq

def BlockAnnot.lineIdx : BlockAnnot → Nat
  | .bullet i _ => i
  | .numbered i _ _ => i
  | .headerNote i _ => i

/-- The loop body of `process_markdown_lists` for one line: the
processed lines it appends (possibly none, when the outer numbered
regex matches but the inner one does not) and the annotations it
appends. -/
def mdLineStep (i : Nat) (line : Chars) : List Chars × List BlockAnnot :=
  let stripped := pyStrip line
  if "- ".data.isPrefixOf stripped ∨ "* ".data.isPrefixOf stripped then
    let content := pyStrip (stripped.drop 2)
    ([bulletGlyph ++ ' ' :: content], [.bullet i (indentLevel line)])
  else if matchNumberedOuter stripped then
    match matchNumberedInner stripped with
    | some (ds, content) =>
      ([ds ++ '.' :: ' ' :: content], [.numbered i (natOfDigits ds) (indentLevel line)])
    | none => ([], [])
  else if stripped.head? = some '#' then
    let level := stripped.length - (stripped.dropWhile (fun c => c == '#')).length
    let content := pyStrip (stripped.dropWhile (fun c => c == '#' || c == ' '))
    ([content], [.headerNote i level])
  else ([line], [])

def mdListLoop : Nat → List Chars → List Chars × List BlockAnnot
  | _, [] => ([], [])
  | i, l :: ls =>
    let step := mdLineStep i l
    let rest := mdListLoop (i + 1) ls
    (step.1 ++ rest.1, step.2 ++ rest.2)

/-- Python `text.split('\n')`. -/
def splitNl : Chars → List Chars
  | [] => [[]]
  | c :: cs =>
    if c = '\n' then [] :: splitNl cs
    else
      match splitNl cs with
      | [] => [[c]]
      | h :: t => (c :: h) :: t

/-- `markdown_processor.process_markdown_lists`. -/
def process_markdown_lists (t : Chars) : Chars × List BlockAnnot :=
  let r := mdListLoop 0 (splitNl t)
  (joinNl r.1, r.2)

/-- Match `<li[^>]*>(.*?)</li>` at the start of `t`: the literal `<li`,
a greedy run of non-`>` characters, `>`, then the lazy body up to
`</li>`.  Returns the body and the total match length. -/
def matchLiAt (t : Chars) : Option (Chars × Nat) :=
  if "<li".data.isPrefixOf t then
    let r1 := t.drop 3
    let a := r1.takeWhile (fun c => c != '>')
    match r1.drop a.length with
    | [] => none
    | _ :: r2 =>
      match findSub "</li>".data r2 with
      | some idx => some (r2.take idx, 3 + a.length + 1 + idx + 5)
      | none => none
  else none

def scanLiF : Nat → Chars → List Chars
  | 0, _ => []
  | _ + 1, [] => []
  | fuel + 1, c :: rest =>
    match matchLiAt (c :: rest) with
    | some (body, len) => body :: scanLiF fuel ((c :: rest).drop len)
    | none => scanLiF fuel rest

/-- `re.finditer(li_pattern, …)` restricted to the captured bodies. -/
def scanLi (t : Chars) : List Chars := scanLiF t.length t

/-- The chunks `f"{i}. {li_content.strip()}\n"` accumulated by the
`enumerate(li_matches, 1)` loop of `process_ol`. -/
def olChunks (items : List Chars) : List Chars :=
  (items.enumFrom 1).map (fun p => (Nat.repr p.1).data ++ '.' :: ' ' :: pyStrip p.2 ++ ['\n'])

/-- `html_processor.process_ol` applied to the captured `<ol>` body. -/
def process_ol (ol_content : Chars) : Chars :=
  pyRstrip (olChunks (scanLi ol_content)).flatten

/-! ## The run appliers: `apply_html_formatting`, `apply_markdown_formatting`

The PowerPoint `TextRange` is modelled as the trace of calls the
applier issues to it.  The target is modelled as non-failing: every
issued call succeeds, so the per-segment `try`/`except` of the source
never fires.  `Font.Strikethrough` (the HTML applier's primary name)
and `Font.Strike` (the Markdown applier's name) are distinct calls. -/

inductive TargetCall where
  | setText (t : Chars)
  | setBold (s l : Nat)
  | setItalic (s l : Nat)
  | setUnderline (s l : Nat)
  | setStrikethroughCall (s l : Nat)
  | setStrikeCall (s l : Nat)
  | setFontColor (s l rgb : Nat)
  | setBgColor (s l rgb : Nat)
deriving DecidableEq

/-- The `Font.Color.RGB` calls made for a `color` value: a 6-digit hex
literal is decoded channel-wise and packed as `b + g*256 + r*65536`;
other `#…` forms fall through silently; named colors go through the
fixed lookup table after lowercasing. -/
def fontColorCalls (st ln : Nat) (v : Chars) : List TargetCall :=
  match v with
  | '#' :: hex =>
    if hex.length = 6 then
      if hex.all isHexDigitCh then
        [.setFontColor st ln
          (hexVal ((hex.drop 4).take 2) + hexVal ((hex.drop 2).take 2) * 256 +
            hexVal (hex.take 2) * 65536)]
      else []
    else []
  | _ =>
    let lv := toLowerStr v
    if lv = "red".data then [.setFontColor st ln 255]
    else if lv = "blue".data then [.setFontColor st ln 16711680]
    else if lv = "green".data then [.setFontColor st ln 65280]
    else if lv = "yellow".data then [.setFontColor st ln 65535]
    else if lv = "orange".data then [.setFontColor st ln 33023]
    else if lv = "purple".data then [.setFontColor st ln 8388736]
    else if lv = "black".data then [.setFontColor st ln 0]
    else if lv = "white".data then [.setFontColor st ln 16777215]
    else []

/-- The `Font.Fill.ForeColor.RGB` calls made for a `background_color`
value: `int(hex[4:6] + hex[2:4] + hex[0:2], 16)`, i.e. red in the low
byte; non-`#` values fall through, and a malformed slice string makes
`int` raise, which the surrounding `except` swallows. -/
def bgColorCalls (st ln : Nat) (v : Chars) : List TargetCall :=
  match v with
  | '#' :: hex =>
    let shuffled := (hex.drop 4).take 2 ++ (hex.drop 2).take 2 ++ hex.take 2
    if shuffled ≠ [] ∧ shuffled.all isHexDigitCh then [.setBgColor st ln (hexVal shuffled)]
    else []
  | _ => []

/-- The styling calls the applier body makes for one segment (after the
empty-dict guard, and for the HTML applier after the bounds guard).
`strikePrimary` selects `Font.Strikethrough` (HTML) vs `Font.Strike`
(Markdown). -/
def segCalls (strikePrimary : Bool) (sg : Seg) : List TargetCall :=
  let f := sg.formatting
  (if f.bold then [.setBold sg.start sg.length] else []) ++
  (if f.italic then [.setItalic sg.start sg.length] else []) ++
  (if f.underline then [.setUnderline sg.start sg.length] else []) ++
  (if f.strikethrough then
    [if strikePrimary then .setStrikethroughCall sg.start sg.length
     else .setStrikeCall sg.start sg.length] else []) ++
  (match f.color with
   | some v => if v = [] then [] else fontColorCalls sg.start sg.length v
   | none => []) ++
  (match f.background_color with
   | some v => if v = [] then [] else bgColorCalls sg.start sg.length v
   | none => [])

/-- `html_processor.apply_html_formatting`: set the whole text, then
for each segment skip empty formatting, skip out-of-bounds segments
(`start > len` or `start + length - 1 > len`), else style the range. -/
def apply_html_formatting (plain : Chars) (segments : List Seg) : List TargetCall :=
  .setText plain :: (segments.map (fun sg =>
    if sg.formatting.isEmpty then []
    else if plain.length < sg.start ∨ plain.length < sg.start + sg.length - 1 then []
    else segCalls true sg)).flatten

/-- `markdown_processor.apply_markdown_formatting`: set the whole text,
then for each segment skip empty formatting and style the range — there
is no bounds validation in this applier. -/
def apply_markdown_formatting (plain : Chars) (segments : List Seg) : List TargetCall :=
  .setText plain :: (segments.map (fun sg =>
    if sg.formatting.isEmpty then [] else segCalls false sg)).flatten

/-! ## The reverse codec:
`slide_context_reader.PowerPointSlideReader.convert_powerpoint_text_to_html`

The live text range read back by the codec is modelled as per-character
style attributes; `runTargetCalls` interprets an applier trace into
such a state (the target's default font color is a parameter). -/

structure CharStyle where
  bold : Bool
  italic : Bool
  underline : Bool
  strike : Bool
  colorRGB : Nat
deriving DecidableEq, BEq

/-- Apply an update to the 1-based character positions `s … s+l-1`. -/
def setRange (styles : List CharStyle) (s l : Nat) (f : CharStyle → CharStyle) :
    List CharStyle :=
  (styles.enumFrom 1).map (fun p => if s ≤ p.1 ∧ p.1 < s + l then f p.2 else p.2)

structure RangeState where
  text : Chars
  styles : List CharStyle
deriving DecidableEq

def runTargetCall (defC : Nat) (st : RangeState) : TargetCall → RangeState
  | .setText t => ⟨t, List.replicate t.length ⟨false, false, false, false, defC⟩⟩
  | .setBold s l => { st with styles := setRange st.styles s l (fun c => { c with bold := true }) }
  | .setItalic s l => { st with styles := setRange st.styles s l (fun c => { c with italic := true }) }
  | .setUnderline s l =>
    { st with styles := setRange st.styles s l (fun c => { c with underline := true }) }
  | .setStrikethroughCall s l =>
    { st with styles := setRange st.styles s l (fun c => { c with strike := true }) }
  | .setStrikeCall s l =>
    { st with styles := setRange st.styles s l (fun c => { c with strike := true }) }
  | .setFontColor s l rgb =>
    { st with styles := setRange st.styles s l (fun c => { c with colorRGB := rgb }) }
  | .setBgColor _ _ _ => st

/-- Interpret an applier trace against an initially empty range.  The
fill (background) color is a distinct target property that the reverse
codec never inspects, so it is not tracked. -/
def runTargetCalls (defC : Nat) (calls : List TargetCall) : RangeState :=
  calls.foldl (runTargetCall defC) ⟨[], []⟩

/-- The hex literal `f"#{r:02x}{g:02x}{b:02x}"` built by the reverse
codec from a packed color (`r = (v >> 16) & 0xFF` and so on). -/
def rgbToHex (v : Nat) : Chars :=
  '#' :: (hexByte (v / 65536 % 256) ++ (hexByte (v / 256 % 256) ++ hexByte (v % 256)))

/-- The color-span condition of the reverse codec: the color differs
from the range's default, is not integer zero, and does not print as
`#000000`. -/
def colorSpanNeeded (defC v : Nat) : Bool :=
  (v != defC) && (v != 0) && !(decide (rgbToHex v = "#000000".data))

def openTagsFor (defC : Nat) (st : CharStyle) : Chars :=
  (if st.bold then "<b>".data else []) ++
  (if st.italic then "<i>".data else []) ++
  (if st.underline then "<u>".data else []) ++
  (if st.strike then "<s>".data else []) ++
  (if colorSpanNeeded defC st.colorRGB then
    "<span style=\"color: ".data ++ rgbToHex st.colorRGB ++ "\">".data else [])

/-- Closing tags are inserted at position 0 as each opening tag is
appended, so they come out in reverse order of the opening tags. -/
def closeTagsFor (defC : Nat) (st : CharStyle) : Chars :=
  (if colorSpanNeeded defC st.colorRGB then "</span>".data else []) ++
  (if st.strike then "</s>".data else []) ++
  (if st.underline then "</u>".data else []) ++
  (if st.italic then "</i>".data else []) ++
  (if st.bold then "</b>".data else [])

/-- Escaping of `&`, `<`, `>` (the chained `str.replace` calls of the
source are equivalent to this character-wise expansion, since the
replacement texts re-introduce no `<` or `>` and the `&` pass runs
first). -/
def escapeHtml (l : Chars) : Chars :=
  (l.map (fun c =>
    if c = '&' then "&amp;".data
    else if c = '<' then "&lt;".data
    else if c = '>' then "&gt;".data
    else [c])).flatten

/-- The grouping loop of `convert_powerpoint_text_to_html`: extend each
run while the following characters report identical bold / italic /
underline / strikethrough / color, then wrap the run in tags.  Fuel is
one unit per character, which always suffices. -/
def encodeGroupsF (defC : Nat) : Nat → List (Char × CharStyle) → Chars
  | 0, _ => []
  | _ + 1, [] => []
  | fuel + 1, (c, st) :: rest =>
    let grp := rest.takeWhile (fun p => p.2 == st)
    openTagsFor defC st ++ escapeHtml (c :: grp.map Prod.fst) ++ closeTagsFor defC st ++
      encodeGroupsF defC fuel (rest.drop grp.length)

/-- `convert_powerpoint_text_to_html` over a modelled range state
(empty text returns the empty string; the per-character exception
fallbacks never fire against the modelled, non-failing range). -/
def convert_powerpoint_text_to_html (defC : Nat) (rs : RangeState) : Chars :=
  if rs.text = [] then []
  else encodeGroupsF defC rs.text.length (rs.text.zip rs.styles)

/-! ## Concrete event streams

These are the token streams the stdlib `html.parser` produces for the
inputs of the concrete scenarios (tag and attribute names lowercased,
text delivered through `handle_data`). -/

def boldHelloEvents : List HtmlEvent :=
  [.startTag "b".data [], .data "Hello".data, .endTag "b".data, .data " world".data]

def emptyBoldEvents : List HtmlEvent :=
  [.startTag "b".data [], .endTag "b".data, .data "hello".data]

def chartreuseEvents : List HtmlEvent :=
  [.startTag "span".data [("style".data, "color: chartreuse".data)],
   .data "x".data, .endTag "span".data]

/-! ## Claim C4 -/

/-- C4: parsing the Markdown input `{color:#ff0000}**bold red**{/color}`
yields plain text `bold red` with exactly two runs, both with start 1
and length 8, the first carrying color `#ff0000` and the second
carrying bold. -/
theorem c4_nested_color_bold_runs :
    parse_markdown_text "\x7bcolor:#ff0000\x7d**bold red**\x7b/color\x7d".data =
      ("bold red".data,
        [⟨1, 8, { color := some "#ff0000".data }⟩, ⟨1, 8, { bold := true }⟩]) := by
  decide

/-! ## Claim C1, counterexample part -/

/-- C1 counterexample: on the Markdown input `~~ab~~ **cd**` the bold
run is recorded at start 8 against an intermediate text, the later
strikethrough pass shortens the text to the 5-character `ab cd`, and
the run violates `start + length - 1 ≤ len(plain_text)`. -/
theorem c1_markdown_bounds_counterexample :
    parse_markdown_text "~~ab~~ **cd**".data =
      ("ab cd".data, [⟨1, 2, { strikethrough := true }⟩, ⟨8, 2, { bold := true }⟩]) ∧
    ¬(8 + 2 - 1 ≤ "ab cd".data.length) := by
  decide

/-! ## Claim C5, counterexample part -/

/-- C5 counterexample: the Markdown color block with empty content
`{color:red}{/color}` emits a run of length 0 (the color/background
path has no emptiness guard). -/
theorem c5_zero_length_run_counterexample :
    parse_markdown_text "\x7bcolor:red\x7d\x7b/color\x7d".data =
      ([], [⟨1, 0, { color := some "red".data }⟩]) ∧
    ((parse_markdown_text "\x7bcolor:red\x7d\x7b/color\x7d".data).2.any
      (fun sg => sg.length == 0)) = true := by
  decide

/-! ## Claim C8, counterexample part -/

/-- C8 counterexample: `process_markdown_lists` echoes the source item
numbers (`5`, `7`) instead of restarting the numbering at 1. -/
theorem c8_markdown_numbering_counterexample :
    (process_markdown_lists "5. foo\n7. bar".data).1 = "5. foo\n7. bar".data ∧
    (process_markdown_lists "5. foo\n7. bar".data).2 =
      [.numbered 0 5 0, .numbered 1 7 0] ∧
    (process_markdown_lists "5. foo\n7. bar".data).1 ≠ "1. foo\n2. bar".data := by
  decide

/-! ## Claim C2, counterexample part -/

/-- C2 counterexample: the Markdown applier performs no bounds
validation, so the out-of-range run `start=1, length=1000` against a
10-character text still produces a styling call. -/
theorem c2_markdown_no_bounds_counterexample :
    apply_markdown_formatting "helloworld".data [⟨1, 1000, { bold := true }⟩] =
      [.setText "helloworld".data, .setBold 1 1000] ∧
    TargetCall.setBold 1 1000 ∈
      apply_markdown_formatting "helloworld".data [⟨1, 1000, { bold := true }⟩] := by
  decide

/-! ## Claim C6 -/

/-- C6 counterexample: the parser records `color = "chartreuse"` on the
run — the color attribute is set, not unset; it is the applier that
later drops it. -/
theorem c6_color_recorded_counterexample :
    parse_html_text (some chartreuseEvents) "<span style=\"color: chartreuse\">x</span>".data =
      ("x".data, [⟨1, 1, { color := some "chartreuse".data }⟩]) ∧
    (({ color := some "chartreuse".data } : Fmt).color ≠ none) := by
  decide

/-- C6 amended: parsing yields plain text `x` and a run whose color
attribute is set to `chartreuse`; the applier then makes no color
property call for it (the value is neither `#RRGGBB` nor in the
palette), so only the text write reaches the target. -/
theorem c6_unknown_color_skipped :
    parse_html_text (some chartreuseEvents) "<span style=\"color: chartreuse\">x</span>".data =
      ("x".data, [⟨1, 1, { color := some "chartreuse".data }⟩]) ∧
    apply_html_formatting "x".data [⟨1, 1, { color := some "chartreuse".data }⟩] =
      [.setText "x".data] := by
  decide

/-! ## Position accounting for the HTML parser (all event streams) -/

theorem popTag_mem {tag : Chars} :
    ∀ {stack : List TagEntry} {e : TagEntry} {rest : List TagEntry},
      popTag tag stack = some (e, rest) → e ∈ stack ∧ ∀ x ∈ rest, x ∈ stack := by
  intro stack
  induction stack with
  | nil => intro e rest h; simp [popTag] at h
  | cons a as ih =>
    intro e rest h
    by_cases ha : a.tag = tag
    · simp only [popTag, if_pos ha, Option.some.injEq, Prod.mk.injEq] at h
      obtain ⟨h1, h2⟩ := h
      subst h1; subst h2
      exact ⟨List.mem_cons_self a as, fun x hx => List.mem_cons_of_mem a hx⟩
    · simp only [popTag, if_neg ha] at h
      cases hp : popTag tag as with
      | none => rw [hp] at h; simp at h
      | some pr =>
        obtain ⟨f, r⟩ := pr
        rw [hp] at h
        simp only [Option.some.injEq, Prod.mk.injEq] at h
        obtain ⟨h1, h2⟩ := h
        subst h1; subst h2
        obtain ⟨hf, hr⟩ := ih hp
        refine ⟨List.mem_cons_of_mem a hf, ?_⟩
        intro x hx
        rcases List.mem_cons.mp hx with rfl | hx2
        · exact List.mem_cons_self x as
        · exact List.mem_cons_of_mem a (hr x hx2)

/-- The invariant maintained by the `PowerPointHTMLParser` handlers:
the position counter equals the emitted length, stacked tags opened at
or before the current position, and every emitted segment is a
non-empty in-bounds 1-based range. -/
def HtmlInv (st : HtmlParserState) : Prop :=
  st.current_position = st.plain_text.length ∧
  (∀ e ∈ st.tag_stack, e.start_position ≤ st.current_position) ∧
  (∀ sg ∈ st.format_segments,
    1 ≤ sg.start ∧ 1 ≤ sg.length ∧ sg.start + sg.length - 1 ≤ st.current_position)

theorem stepEvent_inv {st : HtmlParserState} (h : HtmlInv st) (ev : HtmlEvent) :
    HtmlInv (stepEvent st ev) := by
  obtain ⟨hpos, hstack, hsegs⟩ := h
  cases ev with
  | startTag tag attrs =>
    refine ⟨hpos, ?_, hsegs⟩
    intro e he
    rcases List.mem_cons.mp he with rfl | he2
    · exact le_refl _
    · exact hstack e he2
  | endTag tag =>
    simp only [stepEvent]
    cases hp : popTag tag st.tag_stack with
    | none => exact ⟨hpos, hstack, hsegs⟩
    | some pr =>
      obtain ⟨e, rest⟩ := pr
      have hmem := popTag_mem hp
      by_cases hlt : e.start_position < st.current_position
      · simp only [if_pos hlt]
        refine ⟨hpos, ?_, ?_⟩
        · intro x hx
          exact hstack x (hmem.2 x hx)
        · intro sg hsg
          rcases List.mem_append.mp hsg with h1 | h2
          · exact hsegs sg h1
          · have := List.mem_singleton.mp h2
            subst this
            refine ⟨?_, ?_, ?_⟩
            · show 1 ≤ e.start_position + 1
              omega
            · show 1 ≤ st.current_position - e.start_position
              omega
            · show e.start_position + 1 + (st.current_position - e.start_position) - 1 ≤
                st.current_position
              omega
      · simp only [if_neg hlt]
        exact ⟨hpos, fun x hx => hstack x (hmem.2 x hx), hsegs⟩
  | data s =>
    refine ⟨?_, ?_, ?_⟩
    · show st.current_position + s.length = (st.plain_text ++ s).length
      simp [hpos]
    · intro e he
      have h2 := hstack e he
      show e.start_position ≤ st.current_position + s.length
      omega
    · intro sg hsg
      have h3 := hsegs sg hsg
      show 1 ≤ sg.start ∧ 1 ≤ sg.length ∧
        sg.start + sg.length - 1 ≤ st.current_position + s.length
      omega

theorem foldl_stepEvent_inv (evs : List HtmlEvent) :
    ∀ st : HtmlParserState, HtmlInv st → HtmlInv (evs.foldl stepEvent st) := by
  induction evs with
  | nil => intro st h; exact h
  | cons ev evs ih =>
    intro st h
    exact ih _ (stepEvent_inv h ev)

theorem runEvents_inv (evs : List HtmlEvent) : HtmlInv (runEvents evs) := by
  refine foldl_stepEvent_inv evs initHtmlState ?_
  refine ⟨rfl, ?_, ?_⟩
  · intro x hx
    exact absurd hx (List.not_mem_nil x)
  · intro sg hsg
    exact absurd hsg (List.not_mem_nil sg)

/-- Every run emitted by the HTML-dialect parser is a non-empty
1-based range inside the plain text. -/
theorem parse_html_text_bounds {evs : List HtmlEvent} {text : Chars} {sg : Seg}
    (h : sg ∈ (parse_html_text (some evs) text).2) :
    1 ≤ sg.start ∧ 1 ≤ sg.length ∧
      sg.start + sg.length - 1 ≤ (parse_html_text (some evs) text).1.length := by
  obtain ⟨hpos, _, hsegs⟩ := runEvents_inv evs
  have hmem : sg ∈ sortSegs (runEvents evs).format_segments := h
  have hb := hsegs sg (mem_sortSegs.mp hmem)
  have hlen : (parse_html_text (some evs) text).1.length =
      (runEvents evs).plain_text.length := rfl
  omega

/-! ## Segment provenance in the Markdown passes -/

theorem passRe_segs_mem {out : MdMatch → Chars × List Seg} :
    ∀ {ms : List MdMatch} {plain : Chars} {sg : Seg},
      sg ∈ (passRe out ms plain).2 → ∃ m ∈ ms, sg ∈ (out m).2 := by
  intro ms
  induction ms with
  | nil => intro plain sg h; exact absurd h (List.not_mem_nil sg)
  | cons m ms ih =>
    intro plain sg h
    have h2 : sg ∈ (passRe out ms plain).2 ++ (out m).2 := h
    rcases List.mem_append.mp h2 with h3 | h3
    · obtain ⟨m2, hm2, hsg⟩ := ih h3
      exact ⟨m2, List.mem_cons_of_mem m hm2, hsg⟩
    · exact ⟨m, List.mem_cons_self m ms, h3⟩

theorem passSimple_start {fmt : Fmt} {ms : List MdMatch} {plain : Chars} {sg : Seg}
    (h : sg ∈ (passSimple fmt ms plain).2) : 1 ≤ sg.start := by
  obtain ⟨m, _, hsg⟩ := passRe_segs_mem h
  have h2 : sg ∈ (if m.g1 = [] then ([] : List Seg)
      else [⟨m.s + 1, m.g1.length, fmt⟩]) := hsg
  by_cases hg : m.g1 = []
  · rw [if_pos hg] at h2
    exact absurd h2 (List.not_mem_nil sg)
  · rw [if_neg hg] at h2
    have h3 := List.mem_singleton.mp h2
    subst h3
    exact Nat.le_add_left 1 m.s

theorem passBlock_start {mk : Chars → Fmt} {rec : Chars → Chars × List Seg}
    (hrec : ∀ g sg, sg ∈ (rec g).2 → 1 ≤ sg.start)
    {ms : List MdMatch} {plain : Chars} {sg : Seg}
    (h : sg ∈ (passBlock mk rec ms plain).2) : 1 ≤ sg.start := by
  obtain ⟨m, _, hsg⟩ := passRe_segs_mem h
  have h2 : sg ∈ (⟨m.s + 1, (rec m.g2).1.length, mk m.g1⟩ : Seg) ::
      (rec m.g2).2.map (fun ns => (⟨m.s + ns.start, ns.length, ns.formatting⟩ : Seg)) := hsg
  rcases List.mem_cons.mp h2 with rfl | h3
  · exact Nat.le_add_left 1 m.s
  · obtain ⟨ns, hns, h4⟩ := List.mem_map.mp h3
    subst h4
    have h5 := hrec m.g2 ns hns
    show 1 ≤ m.s + ns.start
    omega

theorem runPass_start {rec : Chars → Chars × List Seg}
    (hrec : ∀ g sg, sg ∈ (rec g).2 → 1 ≤ sg.start)
    {plain : Chars} {p : MdPass} {sg : Seg}
    (h : sg ∈ (runPass rec plain p).2) : 1 ≤ sg.start := by
  cases p with
  | blockPass opnPre cls mk => exact passBlock_start hrec h
  | simplePass opn cls fmt => exact passSimple_start h
  | italicPass d fmt => exact passSimple_start h

theorem runPasses_start {rec : Chars → Chars × List Seg}
    (hrec : ∀ g sg, sg ∈ (rec g).2 → 1 ≤ sg.start) :
    ∀ (ps : List MdPass) (plain : Chars) (sg : Seg),
      sg ∈ (runPasses rec ps plain).2 → 1 ≤ sg.start := by
  intro ps
  induction ps with
  | nil => intro plain sg h; exact absurd h (List.not_mem_nil sg)
  | cons p ps ih =>
    intro plain sg h
    have h2 : sg ∈ (runPass rec plain p).2 ++
        (runPasses rec ps (runPass rec plain p).1).2 := h
    rcases List.mem_append.mp h2 with h3 | h3
    · exact runPass_start hrec h3
    · exact ih _ sg h3

theorem parseMdGo_start :
    ∀ (fuel : Nat) (t : Chars) (sg : Seg), sg ∈ (parseMdGo fuel t).2 → 1 ≤ sg.start := by
  intro fuel
  induction fuel with
  | zero => intro t sg h; exact absurd h (List.not_mem_nil sg)
  | succ fuel ih =>
    intro t sg h
    have h2 : sg ∈ sortSegs (runPasses (parseMdGo fuel) mdPatternTable t).2 := h
    exact runPasses_start (fun g sg2 hh => ih g sg2 hh) mdPatternTable t sg
      (mem_sortSegs.mp h2)

/-! ## Claim C1, amended part -/

/-- C1 amended: every run from the HTML-dialect parser satisfies both
`1 ≤ start` and `start + length - 1 ≤ len(plain_text)`; every run from
the Markdown-dialect parser satisfies `1 ≤ start`, but the upper bound
can fail there (see `c1_markdown_bounds_counterexample`). -/
theorem c1_run_position_accounting :
    (∀ (evs : List HtmlEvent) (text : Chars) (sg : Seg),
        sg ∈ (parse_html_text (some evs) text).2 →
        1 ≤ sg.start ∧
          sg.start + sg.length - 1 ≤ (parse_html_text (some evs) text).1.length) ∧
    (∀ (t : Chars) (sg : Seg), sg ∈ (parse_markdown_text t).2 → 1 ≤ sg.start) := by
  constructor
  · intro evs text sg h
    have hb := parse_html_text_bounds h
    exact ⟨hb.1, hb.2.2⟩
  · intro t sg h
    exact parseMdGo_start _ t sg h

theorem c1_run_position_accounting_witness :
    1 ≤ (Seg.mk 1 5 { bold := true }).start ∧
      (Seg.mk 1 5 { bold := true }).start + (Seg.mk 1 5 { bold := true }).length - 1 ≤
        (parse_html_text (some boldHelloEvents) "<b>Hello</b> world".data).1.length :=
  c1_run_position_accounting.1 boldHelloEvents "<b>Hello</b> world".data
    ⟨1, 5, { bold := true }⟩ (by decide)

/-! ## Claim C5, amended part -/

/-- C5 amended: the HTML-dialect parser never emits a zero-length run
(`<b></b>hello` in particular yields no runs); the Markdown dialect's
simple patterns guard on empty content as well, but its
color/background blocks with empty content do emit a length-0 run
(see `c5_zero_length_run_counterexample`). -/
theorem c5_no_zero_length_runs :
    (∀ (evs : List HtmlEvent) (text : Chars) (sg : Seg),
        sg ∈ (parse_html_text (some evs) text).2 → 1 ≤ sg.length) ∧
    parse_html_text (some emptyBoldEvents) "<b></b>hello".data = ("hello".data, []) := by
  constructor
  · intro evs text sg h
    exact (parse_html_text_bounds h).2.1
  · decide

theorem c5_no_zero_length_runs_witness :
    1 ≤ (Seg.mk 1 5 { bold := true }).length :=
  c5_no_zero_length_runs.1 boldHelloEvents "<b>Hello</b> world".data
    ⟨1, 5, { bold := true }⟩ (by decide)

/-! ## Claim C2, amended part -/

/-- The styling call addresses a 1-based range that lies inside a text
of length `L` (vacuous for the text write itself). -/
def callBoundsOk (L : Nat) : TargetCall → Prop
  | .setText _ => True
  | .setBold s l => s ≤ L ∧ s + l - 1 ≤ L
  | .setItalic s l => s ≤ L ∧ s + l - 1 ≤ L
  | .setUnderline s l => s ≤ L ∧ s + l - 1 ≤ L
  | .setStrikethroughCall s l => s ≤ L ∧ s + l - 1 ≤ L
  | .setStrikeCall s l => s ≤ L ∧ s + l - 1 ≤ L
  | .setFontColor s l _ => s ≤ L ∧ s + l - 1 ≤ L
  | .setBgColor s l _ => s ≤ L ∧ s + l - 1 ≤ L

theorem fontColorCalls_shape {st ln : Nat} {v : Chars} {c : TargetCall}
    (h : c ∈ fontColorCalls st ln v) : ∃ rgb, c = .setFontColor st ln rgb := by
  unfold fontColorCalls at h
  dsimp only at h
  repeat' split at h
  all_goals
    first
    | exact ⟨_, List.mem_singleton.mp h⟩
    | exact absurd h (List.not_mem_nil c)

theorem bgColorCalls_shape {st ln : Nat} {v : Chars} {c : TargetCall}
    (h : c ∈ bgColorCalls st ln v) : ∃ rgb, c = .setBgColor st ln rgb := by
  unfold bgColorCalls at h
  dsimp only at h
  repeat' split at h
  all_goals
    first
    | exact ⟨_, List.mem_singleton.mp h⟩
    | exact absurd h (List.not_mem_nil c)

theorem segCalls_bounds {b : Bool} {sg : Seg} {L : Nat}
    (h1 : sg.start ≤ L) (h2 : sg.start + sg.length - 1 ≤ L) {c : TargetCall}
    (hc : c ∈ segCalls b sg) : callBoundsOk L c := by
  unfold segCalls at hc
  simp only [List.mem_append] at hc
  rcases hc with ((((hA | hB) | hC) | hD) | hE) | hF
  · split at hA
    · have := List.mem_singleton.mp hA
      subst this
      exact ⟨h1, h2⟩
    · exact absurd hA (List.not_mem_nil c)
  · split at hB
    · have := List.mem_singleton.mp hB
      subst this
      exact ⟨h1, h2⟩
    · exact absurd hB (List.not_mem_nil c)
  · split at hC
    · have := List.mem_singleton.mp hC
      subst this
      exact ⟨h1, h2⟩
    · exact absurd hC (List.not_mem_nil c)
  · split at hD
    · have hc2 := List.mem_singleton.mp hD
      subst hc2
      split
      · exact ⟨h1, h2⟩
      · exact ⟨h1, h2⟩
    · exact absurd hD (List.not_mem_nil c)
  · rcases hv : sg.formatting.color with _ | v
    · rw [hv] at hE
      exact absurd hE (List.not_mem_nil c)
    · rw [hv] at hE
      dsimp only at hE
      by_cases he : v = []
      · rw [if_pos he] at hE
        exact absurd hE (List.not_mem_nil c)
      · rw [if_neg he] at hE
        obtain ⟨rgb, hc2⟩ := fontColorCalls_shape hE
        subst hc2
        exact ⟨h1, h2⟩
  · rcases hv : sg.formatting.background_color with _ | v
    · rw [hv] at hF
      exact absurd hF (List.not_mem_nil c)
    · rw [hv] at hF
      dsimp only at hF
      by_cases he : v = []
      · rw [if_pos he] at hF
        exact absurd hF (List.not_mem_nil c)
      · rw [if_neg he] at hF
        obtain ⟨rgb, hc2⟩ := bgColorCalls_shape hF
        subst hc2
        exact ⟨h1, h2⟩

/-- C2 amended: both appliers write the whole text first,
unconditionally; the HTML applier additionally validates bounds, so
every styling call it emits addresses an in-bounds range (out-of-bounds
runs are skipped silently).  The Markdown applier performs no bounds
validation (see `c2_markdown_no_bounds_counterexample`). -/
theorem c2_applier_contract :
    (∀ (plain : Chars) (segments : List Seg),
        (apply_html_formatting plain segments).head? = some (.setText plain) ∧
        (apply_markdown_formatting plain segments).head? = some (.setText plain)) ∧
    (∀ (plain : Chars) (segments : List Seg) (c : TargetCall),
        c ∈ apply_html_formatting plain segments →
        c = .setText plain ∨ callBoundsOk plain.length c) := by
  constructor
  · intro plain segments
    exact ⟨rfl, rfl⟩
  · intro plain segments c hc
    have hc2 : c ∈ (TargetCall.setText plain) :: (segments.map fun sg =>
        if sg.formatting.isEmpty then []
        else if plain.length < sg.start ∨ plain.length < sg.start + sg.length - 1 then []
        else segCalls true sg).flatten := hc
    rcases List.mem_cons.mp hc2 with rfl | h3
    · exact Or.inl rfl
    · right
      obtain ⟨l, hl, hcl⟩ := List.mem_flatten.mp h3
      obtain ⟨sg, hsg, hmap⟩ := List.mem_map.mp hl
      subst hmap
      split at hcl
      · exact absurd hcl (List.not_mem_nil c)
      · split at hcl
        · exact absurd hcl (List.not_mem_nil c)
        · rename_i hB
          push_neg at hB
          exact segCalls_bounds (by omega) (by omega) hcl

theorem c2_applier_contract_witness :
    ((apply_html_formatting "ab".data []).head? = some (.setText "ab".data) ∧
      (apply_markdown_formatting "ab".data []).head? = some (.setText "ab".data)) ∧
    (TargetCall.setBold 1 2 = .setText "ab".data ∨
      callBoundsOk "ab".data.length (.setBold 1 2)) :=
  ⟨c2_applier_contract.1 "ab".data [],
    c2_applier_contract.2 "ab".data [⟨1, 2, { bold := true }⟩] (.setBold 1 2) (by decide)⟩

/-! ## Claim C7: color channel packing -/

theorem hexDigitChar_val : ∀ n < 16, hexDigitVal (hexDigitChar n) = n := by decide

theorem hexDigitChar_isHex : ∀ n < 16, isHexDigitCh (hexDigitChar n) = true := by decide

theorem hexVal_hexByte {n : Nat} (h : n < 256) : hexVal (hexByte n) = n := by
  have h1 : n / 16 < 16 := by omega
  have h2 : n % 16 < 16 := by omega
  show (0 * 16 + hexDigitVal (hexDigitChar (n / 16))) * 16 +
      hexDigitVal (hexDigitChar (n % 16)) = n
  rw [hexDigitChar_val _ h1, hexDigitChar_val _ h2]
  omega

theorem hexVal_six (a b c d e f : Char) :
    hexVal [a, b, c, d, e, f] =
      hexVal [a, b] * 65536 + hexVal [c, d] * 256 + hexVal [e, f] := by
  show (((((0 * 16 + hexDigitVal a) * 16 + hexDigitVal b) * 16 + hexDigitVal c) * 16 +
      hexDigitVal d) * 16 + hexDigitVal e) * 16 + hexDigitVal f =
    ((0 * 16 + hexDigitVal a) * 16 + hexDigitVal b) * 65536 +
      ((0 * 16 + hexDigitVal c) * 16 + hexDigitVal d) * 256 +
      ((0 * 16 + hexDigitVal e) * 16 + hexDigitVal f)
  ring

/-- The `#RRGGBB` literal for channel values `r`, `g`, `b`. -/
def hexColorChars (r g b : Nat) : Chars := '#' :: (hexByte r ++ (hexByte g ++ hexByte b))

theorem fontColorCalls_hex6 {st ln : Nat} {h1 h2 h3 h4 h5 h6 : Char}
    (hh : ([h1, h2, h3, h4, h5, h6] : Chars).all isHexDigitCh = true) :
    fontColorCalls st ln ('#' :: [h1, h2, h3, h4, h5, h6]) =
      [.setFontColor st ln
        (hexVal [h5, h6] + hexVal [h3, h4] * 256 + hexVal [h1, h2] * 65536)] := by
  show (if ([h1, h2, h3, h4, h5, h6] : Chars).length = 6 then
      if ([h1, h2, h3, h4, h5, h6] : Chars).all isHexDigitCh = true then
        [TargetCall.setFontColor st ln
          (hexVal [h5, h6] + hexVal [h3, h4] * 256 + hexVal [h1, h2] * 65536)]
      else []
    else []) = _
  rw [if_pos (show ([h1, h2, h3, h4, h5, h6] : Chars).length = 6 from rfl), if_pos hh]

theorem bgColorCalls_hex6 {st ln : Nat} {h1 h2 h3 h4 h5 h6 : Char}
    (hh : ([h5, h6, h3, h4, h1, h2] : Chars).all isHexDigitCh = true) :
    bgColorCalls st ln ('#' :: [h1, h2, h3, h4, h5, h6]) =
      [.setBgColor st ln (hexVal [h5, h6, h3, h4, h1, h2])] := by
  show (if ([h5, h6, h3, h4, h1, h2] : Chars) ≠ [] ∧
      ([h5, h6, h3, h4, h1, h2] : Chars).all isHexDigitCh = true then
      [TargetCall.setBgColor st ln (hexVal [h5, h6, h3, h4, h1, h2])]
    else []) = _
  rw [if_pos ⟨by simp, hh⟩]

/-- C7: a hex `#RRGGBB` font color is decoded channel-wise and packed
blue-in-low-byte (`b + g*256 + r*65536`); a hex background color is
packed red-in-low-byte (`r + g*256 + b*65536`); named colors resolve
through the fixed eight-entry table of pre-packed integers. -/
theorem c7_color_packing :
    ∀ (r g b st ln : Nat), r < 256 → g < 256 → b < 256 →
      fontColorCalls st ln (hexColorChars r g b) =
        [.setFontColor st ln (b + g * 256 + r * 65536)] ∧
      bgColorCalls st ln (hexColorChars r g b) =
        [.setBgColor st ln (r + g * 256 + b * 65536)] ∧
      segCalls true ⟨st, ln, { color := some (hexColorChars r g b) }⟩ =
        [.setFontColor st ln (b + g * 256 + r * 65536)] ∧
      (fontColorCalls st ln "red".data = [.setFontColor st ln 255] ∧
        fontColorCalls st ln "blue".data = [.setFontColor st ln 16711680] ∧
        fontColorCalls st ln "green".data = [.setFontColor st ln 65280] ∧
        fontColorCalls st ln "yellow".data = [.setFontColor st ln 65535] ∧
        fontColorCalls st ln "orange".data = [.setFontColor st ln 33023] ∧
        fontColorCalls st ln "purple".data = [.setFontColor st ln 8388736] ∧
        fontColorCalls st ln "black".data = [.setFontColor st ln 0] ∧
        fontColorCalls st ln "white".data = [.setFontColor st ln 16777215]) := by
  intro r g b st ln hr hg hb
  have d1 : isHexDigitCh (hexDigitChar (r / 16)) = true := hexDigitChar_isHex _ (by omega)
  have d2 : isHexDigitCh (hexDigitChar (r % 16)) = true := hexDigitChar_isHex _ (by omega)
  have d3 : isHexDigitCh (hexDigitChar (g / 16)) = true := hexDigitChar_isHex _ (by omega)
  have d4 : isHexDigitCh (hexDigitChar (g % 16)) = true := hexDigitChar_isHex _ (by omega)
  have d5 : isHexDigitCh (hexDigitChar (b / 16)) = true := hexDigitChar_isHex _ (by omega)
  have d6 : isHexDigitCh (hexDigitChar (b % 16)) = true := hexDigitChar_isHex _ (by omega)
  have vr : hexVal [hexDigitChar (r / 16), hexDigitChar (r % 16)] = r := hexVal_hexByte hr
  have vg : hexVal [hexDigitChar (g / 16), hexDigitChar (g % 16)] = g := hexVal_hexByte hg
  have vb : hexVal [hexDigitChar (b / 16), hexDigitChar (b % 16)] = b := hexVal_hexByte hb
  have hallf : ([hexDigitChar (r / 16), hexDigitChar (r % 16), hexDigitChar (g / 16),
      hexDigitChar (g % 16), hexDigitChar (b / 16), hexDigitChar (b % 16)] : Chars).all
      isHexDigitCh = true := by
    simp [List.all_cons, d1, d2, d3, d4, d5, d6]
  have hallb : ([hexDigitChar (b / 16), hexDigitChar (b % 16), hexDigitChar (g / 16),
      hexDigitChar (g % 16), hexDigitChar (r / 16), hexDigitChar (r % 16)] : Chars).all
      isHexDigitCh = true := by
    simp [List.all_cons, d1, d2, d3, d4, d5, d6]
  have hfont : fontColorCalls st ln (hexColorChars r g b) =
      [.setFontColor st ln (b + g * 256 + r * 65536)] := by
    have h0 := @fontColorCalls_hex6 st ln (hexDigitChar (r / 16)) (hexDigitChar (r % 16))
      (hexDigitChar (g / 16)) (hexDigitChar (g % 16)) (hexDigitChar (b / 16))
      (hexDigitChar (b % 16)) hallf
    rw [show hexColorChars r g b = '#' :: [hexDigitChar (r / 16), hexDigitChar (r % 16),
      hexDigitChar (g / 16), hexDigitChar (g % 16), hexDigitChar (b / 16),
      hexDigitChar (b % 16)] from rfl, h0, vr, vg, vb]
  refine ⟨hfont, ?_, ?_, rfl, rfl, rfl, rfl, rfl, rfl, rfl, rfl⟩
  · have h0 := @bgColorCalls_hex6 st ln (hexDigitChar (r / 16)) (hexDigitChar (r % 16))
      (hexDigitChar (g / 16)) (hexDigitChar (g % 16)) (hexDigitChar (b / 16))
      (hexDigitChar (b % 16)) hallb
    rw [show hexColorChars r g b = '#' :: [hexDigitChar (r / 16), hexDigitChar (r % 16),
      hexDigitChar (g / 16), hexDigitChar (g % 16), hexDigitChar (b / 16),
      hexDigitChar (b % 16)] from rfl, h0, hexVal_six, vr, vg, vb]
    have : b * 65536 + g * 256 + r = r + g * 256 + b * 65536 := by ring
    rw [this]
  · rw [show segCalls true ⟨st, ln, { color := some (hexColorChars r g b) }⟩ =
      fontColorCalls st ln (hexColorChars r g b) ++ [] from rfl, List.append_nil, hfont]

theorem c7_color_packing_witness :
    fontColorCalls 1 3 (hexColorChars 16 32 48) = [.setFontColor 1 3 (48 + 32 * 256 + 16 * 65536)] ∧
      bgColorCalls 1 3 (hexColorChars 16 32 48) = [.setBgColor 1 3 (16 + 32 * 256 + 48 * 65536)] ∧
      segCalls true ⟨1, 3, { color := some (hexColorChars 16 32 48) }⟩ =
        [.setFontColor 1 3 (48 + 32 * 256 + 16 * 65536)] ∧
      (fontColorCalls 1 3 "red".data = [.setFontColor 1 3 255] ∧
        fontColorCalls 1 3 "blue".data = [.setFontColor 1 3 16711680] ∧
        fontColorCalls 1 3 "green".data = [.setFontColor 1 3 65280] ∧
        fontColorCalls 1 3 "yellow".data = [.setFontColor 1 3 65535] ∧
        fontColorCalls 1 3 "orange".data = [.setFontColor 1 3 33023] ∧
        fontColorCalls 1 3 "purple".data = [.setFontColor 1 3 8388736] ∧
        fontColorCalls 1 3 "black".data = [.setFontColor 1 3 0] ∧
        fontColorCalls 1 3 "white".data = [.setFontColor 1 3 16777215]) :=
  c7_color_packing 16 32 48 1 3 (by decide) (by decide) (by decide)

/-! ## Claim C8, amended part -/

theorem dropWhile_head_not {p : Char → Bool} :
    ∀ (y : Chars) {c : Char}, (y.dropWhile p).head? = some c → p c = false := by
  intro y
  induction y with
  | nil => intro c h; simp [List.dropWhile] at h
  | cons a ys ih =>
    intro c h
    rw [List.dropWhile_cons] at h
    by_cases hp : p a = true
    · rw [if_pos hp] at h
      exact ih h
    · rw [if_neg hp] at h
      simp only [List.head?_cons, Option.some.injEq] at h
      subst h
      exact Bool.not_eq_true _ ▸ hp

theorem pyStrip_getLast_not_space {l : Chars} {c : Char}
    (h : (pyStrip l).getLast? = some c) : pySpace c = false := by
  have h2 : ((pyLstrip l).reverse.dropWhile pySpace).head? = some c := by
    rw [← List.getLast?_reverse]
    exact h
  exact dropWhile_head_not _ h2

theorem digit_ne_char {c d : Char} (hc : c.isDigit = true) (hd : d.isDigit = false) :
    (d == c) = false := by
  simp only [beq_eq_false_iff_ne, ne_eq]
  intro he
  subst he
  rw [hc] at hd
  exact Bool.true_eq_false ▸ hd

/-- When the outer numbered-list regex matches a stripped line, the
inner one does too: the stripped line cannot end in the whitespace the
outer pattern consumed, so content follows it. -/
theorem matchNumberedInner_of_outer {l : Chars}
    (h : matchNumberedOuter (pyStrip l) = true) :
    ∃ ds content, matchNumberedInner (pyStrip l) = some (ds, content) := by
  unfold matchNumberedOuter at h
  by_cases hds : ((pyStrip l).takeWhile Char.isDigit).isEmpty
  · rw [if_pos hds] at h
    exact absurd h (by simp)
  · rw [if_neg hds] at h
    split at h
    next w rest heq =>
      have hrest : rest ≠ [] := by
        intro hr
        subst hr
        have hlast : (pyStrip l).getLast? = some w := by
          rw [← List.take_append_drop ((pyStrip l).takeWhile Char.isDigit).length (pyStrip l),
            heq]
          rw [List.getLast?_append_of_ne_nil _ (by simp)]
          rfl
        have := pyStrip_getLast_not_space hlast
        rw [h] at this
        exact Bool.true_eq_false ▸ this
      refine ⟨(pyStrip l).takeWhile Char.isDigit, rest, ?_⟩
      unfold matchNumberedInner
      rw [if_neg hds, heq]
      show (if pySpace w = true ∧ rest ≠ [] then
          some ((pyStrip l).takeWhile Char.isDigit, rest) else none) =
        some ((pyStrip l).takeWhile Char.isDigit, rest)
      rw [if_pos ⟨h, hrest⟩]
    next => exact absurd h (by simp)

/-- When the inner numbered regex matches the stripped line, the
numbered branch of `process_markdown_lists` emits exactly the line
`"{number}. {content}"` with the source digit string, plus one
annotation carrying the parsed number. -/
theorem mdLineStep_numbered {i : Nat} {line ds content : Chars}
    (h : matchNumberedInner (pyStrip line) = some (ds, content)) :
    (mdLineStep i line).1 = [ds ++ '.' :: ' ' :: content] ∧
    (mdLineStep i line).2 = [.numbered i (natOfDigits ds) (indentLevel line)] := by
  by_cases hds2 : ((pyStrip line).takeWhile Char.isDigit).isEmpty
  · unfold matchNumberedInner at h
    rw [if_pos hds2] at h
    exact absurd h (by simp)
  · unfold matchNumberedInner at h
    rw [if_neg hds2] at h
    split at h
    next w rest heq =>
      by_cases hcond : pySpace w = true ∧ rest ≠ []
      case neg =>
        rw [if_neg hcond] at h
        exact absurd h (by simp)
      case pos =>
        rw [if_pos hcond] at h
        simp only [Option.some.injEq, Prod.mk.injEq] at h
        obtain ⟨hds1, hcontent⟩ := h
        have houter : matchNumberedOuter (pyStrip line) = true := by
          unfold matchNumberedOuter
          rw [if_neg hds2, heq]
          exact hcond.1
        have hbullet : ¬("- ".data.isPrefixOf (pyStrip line) = true ∨
            "* ".data.isPrefixOf (pyStrip line) = true) := by
          cases hst : pyStrip line with
          | nil =>
            rw [hst] at hds2
            simp [List.takeWhile] at hds2
          | cons c cs =>
            have hc : c.isDigit = true := by
              by_contra hcd
              rw [hst, List.takeWhile_cons, if_neg hcd] at hds2
              simp at hds2
            have hdash := digit_ne_char hc (show ('-' : Char).isDigit = false by decide)
            have hstar := digit_ne_char hc (show ('*' : Char).isDigit = false by decide)
            intro hor
            rcases hor with hp | hp
            · have : (('-' : Char) == c && (" ".data.isPrefixOf cs)) = true := hp
              rw [hdash] at this
              simp at this
            · have : (('*' : Char) == c && (" ".data.isPrefixOf cs)) = true := hp
              rw [hstar] at this
              simp at this
        unfold mdLineStep
        rw [if_neg hbullet, if_pos houter]
        subst hds1
        have hinner : matchNumberedInner (pyStrip line) =
            some ((pyStrip line).takeWhile Char.isDigit, content) := by
          unfold matchNumberedInner
          rw [if_neg hds2, heq]
          show (if pySpace w = true ∧ rest ≠ [] then
              some ((pyStrip line).takeWhile Char.isDigit, rest) else none) =
            some ((pyStrip line).takeWhile Char.isDigit, content)
          rw [if_pos hcond, hcontent]
        rw [hinner]
        exact ⟨rfl, rfl⟩
    next => exact absurd h (by simp)

/-- C8 amended: the HTML transformer's `process_ol` renumbers items
1, 2, … in source order regardless of source content, while the
Markdown transformer echoes each item's source digit string (see
`c8_markdown_numbering_counterexample`). -/
theorem c8_list_renumbering :
    (∀ (items : List Chars) (i : Nat),
        (olChunks items)[i]? = (items[i]?).map
          (fun c => (Nat.repr (i + 1)).data ++ '.' :: ' ' :: pyStrip c ++ ['\n'])) ∧
    process_ol "<li>five</li><li>seven</li>".data = "1. five\n2. seven".data ∧
    (∀ (i : Nat) (line ds content : Chars),
        matchNumberedInner (pyStrip line) = some (ds, content) →
        (mdLineStep i line).1 = [ds ++ '.' :: ' ' :: content]) := by
  refine ⟨?_, by decide, ?_⟩
  · intro items i
    unfold olChunks
    rw [List.getElem?_map, List.getElem?_enumFrom]
    cases items[i]? with
    | none => rfl
    | some c => simp [Nat.add_comm]
  · intro i line ds content h
    exact (mdLineStep_numbered h).1

theorem c8_list_renumbering_witness :
    (mdLineStep 0 "5. foo".data).1 = ["5".data ++ '.' :: ' ' :: "foo".data] :=
  c8_list_renumbering.2.2 0 "5. foo".data "5".data "foo".data (by decide)

/-! ## Claim C9: the approximate round trip -/

theorem rgbToHex_pack {r g b : Nat} (hr : r < 256) (hg : g < 256) (hb : b < 256) :
    rgbToHex (b + g * 256 + r * 65536) = hexColorChars r g b := by
  unfold rgbToHex hexColorChars
  have e1 : (b + g * 256 + r * 65536) / 65536 % 256 = r := by omega
  have e2 : (b + g * 256 + r * 65536) / 256 % 256 = g := by omega
  have e3 : (b + g * 256 + r * 65536) % 256 = b := by omega
  rw [e1, e2, e3]

/-- C9: for the single, non-nested style `<b>Hello</b> world`,
encoding the state produced by applying the decoded runs reproduces the
input markup exactly; and a hex color packed by the applier
(`b + g*256 + r*65536`) is unpacked by the reverse codec to the same
`#RRGGBB` literal. -/
theorem c9_single_style_roundtrip :
    convert_powerpoint_text_to_html 0 (runTargetCalls 0
      (apply_html_formatting
        (parse_html_text (some boldHelloEvents) "<b>Hello</b> world".data).1
        (parse_html_text (some boldHelloEvents) "<b>Hello</b> world".data).2)) =
      "<b>Hello</b> world".data ∧
    (∀ r g b : Nat, r < 256 → g < 256 → b < 256 →
      rgbToHex (b + g * 256 + r * 65536) = hexColorChars r g b) :=
  ⟨by decide, fun _ _ _ hr hg hb => rgbToHex_pack hr hg hb⟩

theorem c9_single_style_roundtrip_witness :
    rgbToHex (0 + 0 * 256 + 255 * 65536) = hexColorChars 255 0 0 :=
  c9_single_style_roundtrip.2 255 0 0 (by decide) (by decide) (by decide)

/-! ## Claim C10: line structure of `process_markdown_lists` -/

theorem mem_pyLstrip {c : Char} {l : Chars} (h : c ∈ pyLstrip l) : c ∈ l :=
  (List.dropWhile_sublist pySpace).subset h

theorem mem_pyRstrip {c : Char} {l : Chars} (h : c ∈ pyRstrip l) : c ∈ l := by
  have h2 : c ∈ (l.reverse.dropWhile pySpace) := List.mem_reverse.mp h
  exact List.mem_reverse.mp ((List.dropWhile_sublist pySpace).subset h2)

theorem mem_pyStrip {c : Char} {l : Chars} (h : c ∈ pyStrip l) : c ∈ l :=
  mem_pyLstrip (mem_pyRstrip h)

theorem splitNl_ne_nil : ∀ t : Chars, splitNl t ≠ [] := by
  intro t
  induction t with
  | nil => simp [splitNl]
  | cons c cs ih =>
    unfold splitNl
    by_cases hc : c = '\n'
    · rw [if_pos hc]
      simp
    · rw [if_neg hc]
      cases h : splitNl cs with
      | nil => simp
      | cons a as => simp

theorem splitNl_no_newline : ∀ (t : Chars) (l : Chars), l ∈ splitNl t → '\n' ∉ l := by
  intro t
  induction t with
  | nil =>
    intro l h
    have h2 : l ∈ [([] : Chars)] := h
    rw [List.mem_singleton.mp h2]
    simp
  | cons c cs ih =>
    intro l h
    unfold splitNl at h
    by_cases hc : c = '\n'
    · rw [if_pos hc] at h
      rcases List.mem_cons.mp h with h2 | h2
      · subst h2; simp
      · exact ih l h2
    · rw [if_neg hc] at h
      cases hs : splitNl cs with
      | nil => exact absurd hs (splitNl_ne_nil cs)
      | cons a as =>
        rw [hs] at h
        rcases List.mem_cons.mp h with h2 | h2
        · subst h2
          intro hmem
          rcases List.mem_cons.mp hmem with h3 | h3
          · exact hc h3.symm
          · exact ih a (hs ▸ List.mem_cons_self a as) h3
        · exact ih l (hs ▸ List.mem_cons_of_mem a h2)

theorem splitNl_single : ∀ l : Chars, '\n' ∉ l → splitNl l = [l] := by
  intro l
  induction l with
  | nil => intro h; rfl
  | cons c cs ih =>
    intro h
    have hc : ¬(c = '\n') := fun he => h (he ▸ List.mem_cons_self c cs)
    have hcs : '\n' ∉ cs := fun hm => h (List.mem_cons_of_mem c hm)
    unfold splitNl
    rw [if_neg hc, ih hcs]

theorem splitNl_append_cons (r : Chars) :
    ∀ l : Chars, '\n' ∉ l → splitNl (l ++ '\n' :: r) = l :: splitNl r := by
  intro l
  induction l with
  | nil =>
    intro h
    show splitNl ('\n' :: r) = [] :: splitNl r
    rw [splitNl]
    rw [if_pos (show ('\n' : Char) = '\n' from rfl)]
  | cons c cs ih =>
    intro h
    have hc : ¬(c = '\n') := fun he => h (he ▸ List.mem_cons_self c cs)
    have hcs : '\n' ∉ cs := fun hm => h (List.mem_cons_of_mem c hm)
    show splitNl (c :: (cs ++ '\n' :: r)) = (c :: cs) :: splitNl r
    rw [splitNl]
    rw [if_neg hc, ih hcs]

theorem splitNl_joinNl : ∀ ls : List Chars, ls ≠ [] → (∀ l ∈ ls, '\n' ∉ l) →
    splitNl (joinNl ls) = ls := by
  intro ls
  induction ls with
  | nil => intro h; exact absurd rfl h
  | cons l ls ih =>
    intro _ hnl
    cases ls with
    | nil =>
      show splitNl l = [l]
      exact splitNl_single l (hnl l (List.mem_cons_self l []))
    | cons l2 ls2 =>
      show splitNl (l ++ '\n' :: joinNl (l2 :: ls2)) = l :: (l2 :: ls2)
      rw [splitNl_append_cons _ l (hnl l (List.mem_cons_self l _))]
      rw [ih (by simp) (fun x hx => hnl x (List.mem_cons_of_mem l hx))]

theorem matchNumberedInner_mem {s ds content : Chars}
    (h : matchNumberedInner s = some (ds, content)) :
    (∀ c ∈ ds, c ∈ s) ∧ (∀ c ∈ content, c ∈ s) := by
  unfold matchNumberedInner at h
  by_cases hde : (s.takeWhile Char.isDigit).isEmpty
  · rw [if_pos hde] at h
    exact absurd h (by simp)
  · rw [if_neg hde] at h
    split at h
    next w rest heq =>
      by_cases hc : pySpace w = true ∧ rest ≠ []
      · rw [if_pos hc] at h
        simp only [Option.some.injEq, Prod.mk.injEq] at h
        obtain ⟨h1, h2⟩ := h
        subst h1
        subst h2
        constructor
        · intro c hcm
          exact (List.takeWhile_prefix Char.isDigit).subset hcm
        · intro c hcm
          have h3 : c ∈ s.drop (s.takeWhile Char.isDigit).length := by
            rw [heq]
            exact List.mem_cons_of_mem _ (List.mem_cons_of_mem _ hcm)
          exact List.drop_subset _ s h3
      · rw [if_neg hc] at h
        exact absurd h (by simp)
    next => exact absurd h (by simp)

/-- Each line contributes exactly one processed line (containing no
newline when the input line contains none) and only annotations
carrying its own index. -/
theorem mdLineStep_spec (i : Nat) (l : Chars) (hnl : '\n' ∉ l) :
    ∃ x, (mdLineStep i l).1 = [x] ∧ '\n' ∉ x ∧
      (∀ a ∈ (mdLineStep i l).2, a.lineIdx = i) := by
  by_cases hb : ("- ".data.isPrefixOf (pyStrip l) = true ∨
      "* ".data.isPrefixOf (pyStrip l) = true)
  · refine ⟨bulletGlyph ++ ' ' :: pyStrip ((pyStrip l).drop 2), ?_, ?_, ?_⟩
    · unfold mdLineStep
      rw [if_pos hb]
    · intro hmem
      rcases List.mem_append.mp hmem with h2 | h2
      · exact absurd h2 (by decide)
      · rcases List.mem_cons.mp h2 with h3 | h3
        · exact absurd h3 (by decide)
        · exact hnl (mem_pyStrip (List.drop_subset _ _ (mem_pyStrip h3)))
    · intro a ha
      have ha2 : a ∈ [BlockAnnot.bullet i (indentLevel l)] := by
        have : (mdLineStep i l).2 = [BlockAnnot.bullet i (indentLevel l)] := by
          unfold mdLineStep
          rw [if_pos hb]
        exact this ▸ ha
      rw [List.mem_singleton.mp ha2]
      rfl
  · by_cases ho : matchNumberedOuter (pyStrip l) = true
    · obtain ⟨ds, content, hinner⟩ := matchNumberedInner_of_outer ho
      obtain ⟨hline, hannot⟩ := mdLineStep_numbered (i := i) hinner
      refine ⟨ds ++ '.' :: ' ' :: content, hline, ?_, ?_⟩
      · obtain ⟨hdsm, hcm⟩ := matchNumberedInner_mem hinner
        intro hmem
        rcases List.mem_append.mp hmem with h2 | h2
        · exact hnl (mem_pyStrip (hdsm _ h2))
        · rcases List.mem_cons.mp h2 with h3 | h3
          · exact absurd h3 (by decide)
          · rcases List.mem_cons.mp h3 with h4 | h4
            · exact absurd h4 (by decide)
            · exact hnl (mem_pyStrip (hcm _ h4))
      · intro a ha
        rw [hannot] at ha
        rw [List.mem_singleton.mp ha]
        rfl
    · by_cases hh : (pyStrip l).head? = some '#'
      · refine ⟨pyStrip ((pyStrip l).dropWhile (fun c => c == '#' || c == ' ')), ?_, ?_, ?_⟩
        · unfold mdLineStep
          rw [if_neg hb, if_neg ho, if_pos hh]
        · intro hmem
          exact hnl (mem_pyStrip ((List.dropWhile_sublist _).subset (mem_pyStrip hmem)))
        · intro a ha
          have ha2 : (mdLineStep i l).2 = [BlockAnnot.headerNote i
              ((pyStrip l).length - ((pyStrip l).dropWhile (fun c => c == '#')).length)] := by
            unfold mdLineStep
            rw [if_neg hb, if_neg ho, if_pos hh]
          rw [ha2] at ha
          rw [List.mem_singleton.mp ha]
          rfl
      · refine ⟨l, ?_, hnl, ?_⟩
        · unfold mdLineStep
          rw [if_neg hb, if_neg ho, if_neg hh]
        · intro a ha
          have ha2 : (mdLineStep i l).2 = [] := by
            unfold mdLineStep
            rw [if_neg hb, if_neg ho, if_neg hh]
          rw [ha2] at ha
          exact absurd ha (List.not_mem_nil a)

theorem mdListLoop_spec : ∀ (ls : List Chars) (i : Nat), (∀ l ∈ ls, '\n' ∉ l) →
    (mdListLoop i ls).1.length = ls.length ∧
    (∀ x ∈ (mdListLoop i ls).1, '\n' ∉ x) ∧
    (∀ k, (mdListLoop i ls).1[k]? = (ls[k]?).bind (fun l => (mdLineStep (i + k) l).1[0]?)) ∧
    (∀ a ∈ (mdListLoop i ls).2, i ≤ a.lineIdx ∧ a.lineIdx < i + ls.length) := by
  intro ls
  induction ls with
  | nil =>
    intro i h
    refine ⟨rfl, ?_, ?_, ?_⟩
    · intro x hx
      exact absurd hx (List.not_mem_nil x)
    · intro k
      rfl
    · intro a ha
      exact absurd ha (List.not_mem_nil a)
  | cons l ls ih =>
    intro i hn
    obtain ⟨x, hx1, hx2, hx3⟩ := mdLineStep_spec i l (hn l (List.mem_cons_self l ls))
    obtain ⟨hlen, hnn, hget, hann⟩ := ih (i + 1) (fun y hy => hn y (List.mem_cons_of_mem l hy))
    have he1 : (mdListLoop i (l :: ls)).1 = x :: (mdListLoop (i + 1) ls).1 := by
      show (mdLineStep i l).1 ++ (mdListLoop (i + 1) ls).1 = _
      rw [hx1]
      rfl
    have he2 : (mdListLoop i (l :: ls)).2 =
        (mdLineStep i l).2 ++ (mdListLoop (i + 1) ls).2 := rfl
    refine ⟨?_, ?_, ?_, ?_⟩
    · rw [he1]
      simp only [List.length_cons, hlen]
    · intro y hy
      rw [he1] at hy
      rcases List.mem_cons.mp hy with h2 | h2
      · exact h2 ▸ hx2
      · exact hnn y h2
    · intro k
      rw [he1]
      cases k with
      | zero =>
        rw [List.getElem?_cons_zero, List.getElem?_cons_zero]
        show some x = (mdLineStep (i + 0) l).1[0]?
        have h0 : i + 0 = i := rfl
        rw [h0, hx1, List.getElem?_cons_zero]
      | succ k =>
        rw [List.getElem?_cons_succ, List.getElem?_cons_succ]
        have harith : i + (k + 1) = i + 1 + k := by omega
        rw [harith]
        exact hget k
    · intro a ha
      rw [he2] at ha
      rcases List.mem_append.mp ha with h2 | h2
      · have := hx3 a h2
        simp only [List.length_cons]
        omega
      · have := hann a h2
        simp only [List.length_cons]
        omega

/-- C10: the Markdown block transformer keeps the line count, each
output line is produced from the input line of the same index, and
every annotation's line index is a valid index into the line array. -/
theorem c10_line_structure (t : Chars) :
    (splitNl (process_markdown_lists t).1).length = (splitNl t).length ∧
    (∀ i : Nat, (splitNl (process_markdown_lists t).1)[i]? =
      ((splitNl t)[i]?).bind (fun l => (mdLineStep i l).1[0]?)) ∧
    (∀ a ∈ (process_markdown_lists t).2, a.lineIdx < (splitNl t).length) := by
  have hnl := splitNl_no_newline t
  obtain ⟨hlen, hnn, hget, hann⟩ := mdListLoop_spec (splitNl t) 0 hnl
  have hjoin : splitNl (joinNl (mdListLoop 0 (splitNl t)).1) =
      (mdListLoop 0 (splitNl t)).1 := by
    apply splitNl_joinNl
    · intro he
      have h0 : (splitNl t).length = 0 := by rw [← hlen, he]; rfl
      exact splitNl_ne_nil t (List.length_eq_zero.mp h0)
    · exact hnn
  have hp1 : (process_markdown_lists t).1 = joinNl (mdListLoop 0 (splitNl t)).1 := rfl
  have hp2 : (process_markdown_lists t).2 = (mdListLoop 0 (splitNl t)).2 := rfl
  refine ⟨?_, ?_, ?_⟩
  · rw [hp1, hjoin, hlen]
  · intro i
    rw [hp1, hjoin]
    have hg := hget i
    have h0 : 0 + i = i := by omega
    rw [h0] at hg
    exact hg
  · intro a ha
    rw [hp2] at ha
    have := hann a ha
    omega

theorem c10_line_structure_witness :
    BlockAnnot.lineIdx (.headerNote 0 1) < (splitNl "# Title\nBody".data).length :=
  (c10_line_structure "# Title\nBody".data).2.2 (.headerNote 0 1) (by decide)

/-! ## Claim C3: totality of the parsers

The HTML side is immediate from the failure handling in
`parse_html_text`.  For the Markdown side we prove that the fuel bound
of `parseMdGo` is irrelevant once it exceeds the input length: nested
color/background content is strictly shorter than the text it came
from, so the Python recursion always terminates. -/

theorem findSub_le {needle : Chars} :
    ∀ {l : Chars} {i : Nat}, findSub needle l = some i → i + needle.length ≤ l.length := by
  intro l
  induction l with
  | nil =>
    intro i h
    unfold findSub at h
    by_cases hn : needle = []
    · rw [if_pos hn] at h
      simp only [Option.some.injEq] at h
      subst h
      simp [hn]
    · rw [if_neg hn] at h
      exact absurd h (by simp)
  | cons c cs ih =>
    intro i h
    unfold findSub at h
    by_cases hp : needle.isPrefixOf (c :: cs) = true
    · rw [if_pos hp] at h
      simp only [Option.some.injEq] at h
      subst h
      have := (List.isPrefixOf_iff_prefix.mp hp).length_le
      simpa using this
    · rw [if_neg hp] at h
      cases hf : findSub needle cs with
      | none =>
        rw [hf] at h
        exact absurd h (by simp)
      | some j =>
        rw [hf] at h
        simp only [Option.map_some', Option.some.injEq] at h
        subst h
        have := ih hf
        simp only [List.length_cons]
        omega

theorem matchDelimAt_spec {opn cls t g1 : Chars} {len : Nat}
    (h : matchDelimAt opn cls t = some (g1, len)) :
    g1.length ≤ len ∧ len ≤ t.length := by
  unfold matchDelimAt at h
  by_cases hp : opn.isPrefixOf t = true
  · rw [if_pos hp] at h
    cases hf : findSub cls (t.drop opn.length) with
    | none =>
      rw [hf] at h
      exact absurd h (by simp)
    | some idx =>
      rw [hf] at h
      simp only [Option.some.injEq, Prod.mk.injEq] at h
      obtain ⟨h1, h2⟩ := h
      subst h1
      subst h2
      have hfle := findSub_le hf
      have hople := (List.isPrefixOf_iff_prefix.mp hp).length_le
      rw [List.length_drop] at hfle
      constructor
      · have : ((t.drop opn.length).take idx).length ≤ idx := by
          rw [List.length_take]
          omega
        omega
      · omega
  · rw [if_neg hp] at h
    exact absurd h (by simp)

theorem length_takeWhile_le_chars (p : Char → Bool) (l : Chars) :
    (l.takeWhile p).length ≤ l.length :=
  (List.takeWhile_prefix p).length_le

theorem matchBlockAt_spec {opnPre cls t g1 g2 : Chars} {len : Nat}
    (h : matchBlockAt opnPre cls t = some (g1, g2, len)) :
    g1.length ≤ len ∧ g2.length + 2 ≤ len ∧ len ≤ t.length := by
  unfold matchBlockAt at h
  by_cases hp : opnPre.isPrefixOf t = true
  · rw [if_pos hp] at h
    by_cases hg : (t.drop opnPre.length).takeWhile (fun c => c != '\x7d') = []
    · rw [if_pos hg] at h
      exact absurd h (by simp)
    · rw [if_neg hg] at h
      cases hd : (t.drop opnPre.length).drop
          ((t.drop opnPre.length).takeWhile (fun c => c != '\x7d')).length with
      | nil =>
        rw [hd] at h
        exact absurd h (by simp)
      | cons c0 r2 =>
        rw [hd] at h
        dsimp only at h
        cases hf : findSub cls r2 with
        | none =>
          rw [hf] at h
          exact absurd h (by simp)
        | some idx =>
          rw [hf] at h
          simp only [Option.some.injEq, Prod.mk.injEq] at h
          obtain ⟨h1, h2, h3⟩ := h
          subst h1
          subst h2
          subst h3
          have hfle := findSub_le hf
          have hople := (List.isPrefixOf_iff_prefix.mp hp).length_le
          have hg1 : 1 ≤ ((t.drop opnPre.length).takeWhile (fun c => c != '\x7d')).length := by
            cases hc : (t.drop opnPre.length).takeWhile (fun c => c != '\x7d') with
            | nil => exact absurd hc hg
            | cons a as => simp
          have hr2 : ((t.drop opnPre.length).takeWhile (fun c => c != '\x7d')).length + 1 +
              r2.length ≤ t.length - opnPre.length := by
            have htw : ((t.drop opnPre.length).takeWhile (fun c => c != '\x7d')).length ≤
                (t.drop opnPre.length).length := length_takeWhile_le_chars _ _
            have hdl : ((t.drop opnPre.length).drop
                ((t.drop opnPre.length).takeWhile (fun c => c != '\x7d')).length).length =
                (t.drop opnPre.length).length -
                  ((t.drop opnPre.length).takeWhile (fun c => c != '\x7d')).length := by
              rw [List.length_drop]
            rw [hd] at hdl
            simp only [List.length_cons] at hdl
            rw [List.length_drop] at hdl htw
            omega
          have hg2 : (r2.take idx).length ≤ idx := by
            rw [List.length_take]
            omega
          refine ⟨by omega, by omega, by omega⟩
  · rw [if_neg hp] at h
    exact absurd h (by simp)

theorem matchItalicAt_spec {d : Char} {prev : Option Char} {t g1 : Chars} {len : Nat}
    (h : matchItalicAt d prev t = some (g1, len)) :
    g1.length ≤ len ∧ len ≤ t.length := by
  unfold matchItalicAt at h
  cases t with
  | nil => exact absurd h (by simp)
  | cons c r =>
    dsimp only at h
    by_cases hc : c = d ∧ prev ≠ some d
    · rw [if_pos hc] at h
      by_cases hg : r.takeWhile (fun x => x != d) = []
      · rw [if_pos hg] at h
        exact absurd h (by simp)
      · rw [if_neg hg] at h
        cases hd2 : r.drop (r.takeWhile (fun x => x != d)).length with
        | nil =>
          rw [hd2] at h
          exact absurd h (by simp)
        | cons c0 rest =>
          rw [hd2] at h
          dsimp only at h
          have htw : (r.takeWhile (fun x => x != d)).length ≤ r.length :=
            length_takeWhile_le_chars _ _
          have hdl : (r.drop (r.takeWhile (fun x => x != d)).length).length =
              r.length - (r.takeWhile (fun x => x != d)).length := List.length_drop _ _
          rw [hd2] at hdl
          simp only [List.length_cons] at hdl
          cases rest with
          | nil =>
            simp only [Option.some.injEq, Prod.mk.injEq] at h
            obtain ⟨h1, h2⟩ := h
            subst h2
            subst h1
            simp only [List.length_cons]
            omega
          | cons x xs =>
            dsimp only at h
            by_cases hx : x = d
            · rw [if_pos hx] at h
              exact absurd h (by simp)
            · rw [if_neg hx] at h
              simp only [Option.some.injEq, Prod.mk.injEq] at h
              obtain ⟨h1, h2⟩ := h
              subst h2
              subst h1
              simp only [List.length_cons]
              omega
    · rw [if_neg hc] at h
      exact absurd h (by simp)

/-- Validity of a scanner's match list: matches are chained left to
right starting at `k`, each group fits inside its match, and all ends
stay within `L`. -/
def ChainBound (k L : Nat) : List MdMatch → Prop
  | [] => True
  | m :: ms => k ≤ m.s ∧ m.s + m.g1.length ≤ m.e ∧ m.s + m.g2.length ≤ m.e ∧
      m.e ≤ L ∧ ChainBound m.e L ms

theorem ChainBound.mono : ∀ {ms : List MdMatch} {k L L2 : Nat},
    ChainBound k L ms → L ≤ L2 → ChainBound k L2 ms := by
  intro ms
  induction ms with
  | nil => intro k L L2 h hle; exact trivial
  | cons m ms ih =>
    intro k L L2 h hle
    obtain ⟨h1, h2, h3, h4, h5⟩ := h
    exact ⟨h1, h2, h3, by omega, ih h5 hle⟩

theorem ChainBound.le_k : ∀ {ms : List MdMatch} {k k2 L : Nat},
    ChainBound k L ms → k2 ≤ k → ChainBound k2 L ms := by
  intro ms
  cases ms with
  | nil => intro k k2 L h hle; exact trivial
  | cons m ms =>
    intro k k2 L h hle
    obtain ⟨h1, h2, h3, h4, h5⟩ := h
    exact ⟨by omega, h2, h3, h4, h5⟩

theorem scanDelimF_chain (opn cls : Chars) :
    ∀ (fuel : Nat) (u : Chars) (p : Nat),
      ChainBound p (p + u.length) (scanDelimF opn cls fuel u p) := by
  intro fuel
  induction fuel with
  | zero => intro u p; exact trivial
  | succ fuel ih =>
    intro u p
    cases u with
    | nil => exact trivial
    | cons c rest =>
      cases hm : matchDelimAt opn cls (c :: rest) with
      | none =>
        have heq : scanDelimF opn cls (fuel + 1) (c :: rest) p =
            scanDelimF opn cls fuel rest (p + 1) := by
          rw [scanDelimF, hm]
        rw [heq]
        have h2 := (ih rest (p + 1)).le_k (show p ≤ p + 1 by omega)
        have harith : p + 1 + rest.length = p + (c :: rest).length := by
          simp only [List.length_cons]
          omega
        exact harith ▸ h2
      | some pr =>
        obtain ⟨g1, len⟩ := pr
        obtain ⟨hg1, hlen⟩ := matchDelimAt_spec hm
        have heq : scanDelimF opn cls (fuel + 1) (c :: rest) p =
            ⟨p, p + len, g1, []⟩ :: scanDelimF opn cls fuel ((c :: rest).drop len) (p + len) := by
          rw [scanDelimF, hm]
        rw [heq]
        refine ⟨le_refl p, ?_, ?_, ?_, ?_⟩
        · show p + g1.length ≤ p + len
          omega
        · show p + ([] : Chars).length ≤ p + len
          simp
        · show p + len ≤ p + (c :: rest).length
          omega
        · have h2 := ih ((c :: rest).drop len) (p + len)
          have harith : p + len + ((c :: rest).drop len).length = p + (c :: rest).length := by
            rw [List.length_drop]
            omega
          exact harith ▸ h2

theorem scanBlockF_chain (opnPre cls : Chars) :
    ∀ (fuel : Nat) (u : Chars) (p : Nat),
      ChainBound p (p + u.length) (scanBlockF opnPre cls fuel u p) := by
  intro fuel
  induction fuel with
  | zero => intro u p; exact trivial
  | succ fuel ih =>
    intro u p
    cases u with
    | nil => exact trivial
    | cons c rest =>
      cases hm : matchBlockAt opnPre cls (c :: rest) with
      | none =>
        have heq : scanBlockF opnPre cls (fuel + 1) (c :: rest) p =
            scanBlockF opnPre cls fuel rest (p + 1) := by
          rw [scanBlockF, hm]
        rw [heq]
        have h2 := (ih rest (p + 1)).le_k (show p ≤ p + 1 by omega)
        have harith : p + 1 + rest.length = p + (c :: rest).length := by
          simp only [List.length_cons]
          omega
        exact harith ▸ h2
      | some pr =>
        obtain ⟨g1, g2, len⟩ := pr
        obtain ⟨hg1, hg2, hlen⟩ := matchBlockAt_spec hm
        have heq : scanBlockF opnPre cls (fuel + 1) (c :: rest) p =
            ⟨p, p + len, g1, g2⟩ ::
              scanBlockF opnPre cls fuel ((c :: rest).drop len) (p + len) := by
          rw [scanBlockF, hm]
        rw [heq]
        refine ⟨le_refl p, ?_, ?_, ?_, ?_⟩
        · show p + g1.length ≤ p + len
          omega
        · show p + g2.length ≤ p + len
          omega
        · show p + len ≤ p + (c :: rest).length
          omega
        · have h2 := ih ((c :: rest).drop len) (p + len)
          have harith : p + len + ((c :: rest).drop len).length = p + (c :: rest).length := by
            rw [List.length_drop]
            omega
          exact harith ▸ h2

theorem scanItalicF_chain (d : Char) :
    ∀ (fuel : Nat) (prev : Option Char) (u : Chars) (p : Nat),
      ChainBound p (p + u.length) (scanItalicF d fuel prev u p) := by
  intro fuel
  induction fuel with
  | zero => intro prev u p; exact trivial
  | succ fuel ih =>
    intro prev u p
    cases u with
    | nil => exact trivial
    | cons c rest =>
      cases hm : matchItalicAt d prev (c :: rest) with
      | none =>
        have heq : scanItalicF d (fuel + 1) prev (c :: rest) p =
            scanItalicF d fuel (some c) rest (p + 1) := by
          rw [scanItalicF, hm]
        rw [heq]
        have h2 := (ih (some c) rest (p + 1)).le_k (show p ≤ p + 1 by omega)
        have harith : p + 1 + rest.length = p + (c :: rest).length := by
          simp only [List.length_cons]
          omega
        exact harith ▸ h2
      | some pr =>
        obtain ⟨g1, len⟩ := pr
        obtain ⟨hg1, hlen⟩ := matchItalicAt_spec hm
        have heq : scanItalicF d (fuel + 1) prev (c :: rest) p =
            ⟨p, p + len, g1, []⟩ ::
              scanItalicF d fuel (some d) ((c :: rest).drop len) (p + len) := by
          rw [scanItalicF, hm]
        rw [heq]
        refine ⟨le_refl p, ?_, ?_, ?_, ?_⟩
        · show p + g1.length ≤ p + len
          omega
        · show p + ([] : Chars).length ≤ p + len
          simp
        · show p + len ≤ p + (c :: rest).length
          omega
        · have h2 := ih (some d) ((c :: rest).drop len) (p + len)
          have harith : p + len + ((c :: rest).drop len).length = p + (c :: rest).length := by
            rw [List.length_drop]
            omega
          exact harith ▸ h2

theorem scanBlockF_g2 (opnPre cls : Chars) :
    ∀ (fuel : Nat) (u : Chars) (p : Nat) (m : MdMatch),
      m ∈ scanBlockF opnPre cls fuel u p → m.g2.length + 2 ≤ u.length := by
  intro fuel
  induction fuel with
  | zero =>
    intro u p m h
    exact absurd h (List.not_mem_nil m)
  | succ fuel ih =>
    intro u p m h
    cases u with
    | nil => exact absurd h (List.not_mem_nil m)
    | cons c rest =>
      cases hm : matchBlockAt opnPre cls (c :: rest) with
      | none =>
        have heq : scanBlockF opnPre cls (fuel + 1) (c :: rest) p =
            scanBlockF opnPre cls fuel rest (p + 1) := by
          rw [scanBlockF, hm]
        rw [heq] at h
        have := ih rest (p + 1) m h
        simp only [List.length_cons]
        omega
      | some pr =>
        obtain ⟨g1, g2, len⟩ := pr
        obtain ⟨hg1, hg2, hlen⟩ := matchBlockAt_spec hm
        have heq : scanBlockF opnPre cls (fuel + 1) (c :: rest) p =
            ⟨p, p + len, g1, g2⟩ ::
              scanBlockF opnPre cls fuel ((c :: rest).drop len) (p + len) := by
          rw [scanBlockF, hm]
        rw [heq] at h
        rcases List.mem_cons.mp h with h2 | h2
        · subst h2
          show g2.length + 2 ≤ (c :: rest).length
          omega
        · have := ih ((c :: rest).drop len) (p + len) m h2
          rw [List.length_drop] at this
          simp only [List.length_cons] at this ⊢
          omega

/-- Applying a pass's replacements never lengthens the text, leaves the
prefix below the chain start untouched, and keeps at least that prefix. -/
theorem passRe_shrink {out : MdMatch → Chars × List Seg} :
    ∀ (ms : List MdMatch) (plain : Chars) (k : Nat),
      ChainBound k plain.length ms →
      (∀ m ∈ ms, m.s + (out m).1.length ≤ m.e) →
      k ≤ plain.length →
      (passRe out ms plain).1.take k = plain.take k ∧
      k ≤ (passRe out ms plain).1.length ∧
      (passRe out ms plain).1.length ≤ plain.length := by
  intro ms
  induction ms with
  | nil =>
    intro plain k hc hout hk
    exact ⟨rfl, hk, le_refl _⟩
  | cons m ms ih =>
    intro plain k hc hout hk
    obtain ⟨hks, hg1, hg2, he, hcrest⟩ := hc
    obtain ⟨htake, hlen_ge, hlen_le⟩ :=
      ih plain m.e hcrest (fun x hx => hout x (List.mem_cons_of_mem m hx)) (by omega)
    have houtm := hout m (List.mem_cons_self m ms)
    have hse : m.s ≤ m.e := by omega
    have heq : (passRe out (m :: ms) plain).1 =
        (passRe out ms plain).1.take m.s ++ (out m).1 ++
          (passRe out ms plain).1.drop m.e := rfl
    have hA : ((passRe out ms plain).1.take m.s).length = m.s := by
      rw [List.length_take]
      omega
    have hkP : (passRe out ms plain).1.take k = plain.take k := by
      have h1 : ((passRe out ms plain).1.take m.e).take k = (plain.take m.e).take k := by
        rw [htake]
      rw [List.take_take, List.take_take] at h1
      rw [Nat.min_eq_left (by omega : k ≤ m.e)] at h1
      exact h1
    refine ⟨?_, ?_, ?_⟩
    · rw [heq]
      rw [List.take_append_of_le_length (by
        rw [List.length_append, hA]
        omega)]
      rw [List.take_append_of_le_length (by rw [hA]; omega)]
      rw [List.take_take, Nat.min_eq_left (by omega : k ≤ m.s)]
      exact hkP
    · rw [heq]
      rw [List.length_append, List.length_append, hA]
      omega
    · rw [heq]
      rw [List.length_append, List.length_append, hA, List.length_drop]
      omega

theorem passRe_congr {out1 out2 : MdMatch → Chars × List Seg} :
    ∀ (ms : List MdMatch) (plain : Chars), (∀ m ∈ ms, out1 m = out2 m) →
      passRe out1 ms plain = passRe out2 ms plain := by
  intro ms
  induction ms with
  | nil => intro plain h; rfl
  | cons m ms ih =>
    intro plain h
    have h1 : passRe out1 ms plain = passRe out2 ms plain :=
      ih plain (fun x hx => h x (List.mem_cons_of_mem m hx))
    have h2 : out1 m = out2 m := h m (List.mem_cons_self m ms)
    show ((passRe out1 ms plain).1.take m.s ++ (out1 m).1 ++
        (passRe out1 ms plain).1.drop m.e,
      (passRe out1 ms plain).2 ++ (out1 m).2) =
      ((passRe out2 ms plain).1.take m.s ++ (out2 m).1 ++
        (passRe out2 ms plain).1.drop m.e,
      (passRe out2 ms plain).2 ++ (out2 m).2)
    rw [h1, h2]

theorem ChainBound.mem : ∀ {ms : List MdMatch} {k L : Nat} {m : MdMatch},
    ChainBound k L ms → m ∈ ms →
    m.s + m.g1.length ≤ m.e ∧ m.s + m.g2.length ≤ m.e ∧ m.e ≤ L := by
  intro ms
  induction ms with
  | nil => intro k L m h hm; exact absurd hm (List.not_mem_nil m)
  | cons a as ih =>
    intro k L m h hm
    obtain ⟨h1, h2, h3, h4, h5⟩ := h
    rcases List.mem_cons.mp hm with rfl | hm2
    · exact ⟨h2, h3, h4⟩
    · exact ih h5 hm2

theorem runPass_shrink {rec : Chars → Chars × List Seg}
    (hrec : ∀ g, (rec g).1.length ≤ g.length) (plain : Chars) (p : MdPass) :
    (runPass rec plain p).1.length ≤ plain.length := by
  cases p with
  | blockPass opnPre cls mk =>
    have hchain : ChainBound 0 plain.length (scanBlock opnPre cls plain) := by
      have h0 := scanBlockF_chain opnPre cls plain.length plain 0
      have h1 : (0 : Nat) + plain.length = plain.length := by omega
      exact h1 ▸ h0
    refine (passRe_shrink (scanBlock opnPre cls plain) plain 0 hchain ?_ (by omega)).2.2
    intro m hm
    have hb := hchain.mem hm
    have := hrec m.g2
    show m.s + (rec m.g2).1.length ≤ m.e
    omega
  | simplePass opn cls fmt =>
    have hchain : ChainBound 0 plain.length (scanDelim opn cls plain) := by
      have h0 := scanDelimF_chain opn cls plain.length plain 0
      have h1 : (0 : Nat) + plain.length = plain.length := by omega
      exact h1 ▸ h0
    refine (passRe_shrink (scanDelim opn cls plain) plain 0 hchain ?_ (by omega)).2.2
    intro m hm
    have hb := hchain.mem hm
    show m.s + m.g1.length ≤ m.e
    omega
  | italicPass d fmt =>
    have hchain : ChainBound 0 plain.length (scanItalic d plain) := by
      have h0 := scanItalicF_chain d plain.length none plain 0
      have h1 : (0 : Nat) + plain.length = plain.length := by omega
      exact h1 ▸ h0
    refine (passRe_shrink (scanItalic d plain) plain 0 hchain ?_ (by omega)).2.2
    intro m hm
    have hb := hchain.mem hm
    show m.s + m.g1.length ≤ m.e
    omega

theorem runPasses_shrink {rec : Chars → Chars × List Seg}
    (hrec : ∀ g, (rec g).1.length ≤ g.length) :
    ∀ (ps : List MdPass) (plain : Chars),
      (runPasses rec ps plain).1.length ≤ plain.length := by
  intro ps
  induction ps with
  | nil => intro plain; exact le_refl _
  | cons p ps ih =>
    intro plain
    have h1 : (runPasses rec (p :: ps) plain).1 =
        (runPasses rec ps (runPass rec plain p).1).1 := rfl
    rw [h1]
    exact le_trans (ih (runPass rec plain p).1) (runPass_shrink hrec plain p)

theorem parseMdGo_shrink : ∀ (fuel : Nat) (t : Chars),
    (parseMdGo fuel t).1.length ≤ t.length := by
  intro fuel
  induction fuel with
  | zero => intro t; exact le_refl _
  | succ fuel ih =>
    intro t
    rw [parseMdGo]
    dsimp only
    exact runPasses_shrink (fun g => ih g) mdPatternTable t

theorem runPass_congr {rec1 rec2 : Chars → Chars × List Seg} (plain : Chars) (p : MdPass)
    (hag : ∀ g : Chars, g.length < plain.length → rec1 g = rec2 g) :
    runPass rec1 plain p = runPass rec2 plain p := by
  cases p with
  | blockPass opnPre cls mk =>
    show passBlock mk rec1 (scanBlock opnPre cls plain) plain =
      passBlock mk rec2 (scanBlock opnPre cls plain) plain
    apply passRe_congr
    intro m hm
    have hg2 := scanBlockF_g2 opnPre cls plain.length plain 0 m hm
    have heq : rec1 m.g2 = rec2 m.g2 := hag m.g2 (by omega)
    dsimp only
    rw [heq]
  | simplePass opn cls fmt => rfl
  | italicPass d fmt => rfl

theorem runPasses_congr {rec1 rec2 : Chars → Chars × List Seg} (L : Nat)
    (hrec1 : ∀ g, (rec1 g).1.length ≤ g.length)
    (hag : ∀ g : Chars, g.length < L → rec1 g = rec2 g) :
    ∀ (ps : List MdPass) (plain : Chars), plain.length ≤ L →
      runPasses rec1 ps plain = runPasses rec2 ps plain := by
  intro ps
  induction ps with
  | nil => intro plain h; rfl
  | cons p ps ih =>
    intro plain hle
    have h1 : runPass rec1 plain p = runPass rec2 plain p :=
      runPass_congr plain p (fun g hg => hag g (by omega))
    have h2 : runPasses rec1 ps (runPass rec1 plain p).1 =
        runPasses rec2 ps (runPass rec1 plain p).1 :=
      ih (runPass rec1 plain p).1 (le_trans (runPass_shrink hrec1 plain p) hle)
    show ((runPasses rec1 ps (runPass rec1 plain p).1).1,
        (runPass rec1 plain p).2 ++ (runPasses rec1 ps (runPass rec1 plain p).1).2) =
      ((runPasses rec2 ps (runPass rec2 plain p).1).1,
        (runPass rec2 plain p).2 ++ (runPasses rec2 ps (runPass rec2 plain p).1).2)
    rw [h2, h1]

theorem parseMdGo_stable : ∀ (fuel : Nat) (t : Chars), t.length < fuel →
    parseMdGo fuel t = parseMdGo (t.length + 1) t := by
  intro fuel
  induction fuel using Nat.strong_induction_on with
  | _ fuel ih =>
    intro t ht
    cases fuel with
    | zero => omega
    | succ f =>
      have hrp : runPasses (parseMdGo f) mdPatternTable t =
          runPasses (parseMdGo t.length) mdPatternTable t := by
        refine runPasses_congr t.length (fun g => parseMdGo_shrink f g) ?_
          mdPatternTable t (le_refl _)
        intro g hg
        have e1 : parseMdGo f g = parseMdGo (g.length + 1) g :=
          ih f (by omega) g (by omega)
        have e2 : parseMdGo t.length g = parseMdGo (g.length + 1) g :=
          ih t.length (by omega) g (by omega)
        rw [e1, e2]
      have hL : parseMdGo (f + 1) t =
          ((runPasses (parseMdGo f) mdPatternTable t).1,
            sortSegs (runPasses (parseMdGo f) mdPatternTable t).2) := by
        rw [parseMdGo]
      have hR : parseMdGo (t.length + 1) t =
          ((runPasses (parseMdGo t.length) mdPatternTable t).1,
            sortSegs (runPasses (parseMdGo t.length) mdPatternTable t).2) := by
        rw [parseMdGo]
      rw [hL, hR, hrp]

/-- C3: neither parser can fail.  The HTML entry point catches tokenizer
failure and degrades to `(text, [])`; the Markdown parser's recursion on
nested content is total — any fuel beyond the input length computes the
same result, so the modelled recursion never bottoms out. -/
theorem c3_parse_never_raises :
    (∀ text : Chars, parse_html_text none text = (text, [])) ∧
    (∀ (text : Chars) (fuel : Nat), text.length < fuel →
      parseMdGo fuel text = parse_markdown_text text) :=
  ⟨fun _ => rfl, fun text fuel h => parseMdGo_stable fuel text h⟩

theorem c3_parse_never_raises_witness :
    parse_html_text none "abc".data = ("abc".data, []) ∧
      parseMdGo 5 "ab".data = parse_markdown_text "ab".data :=
  ⟨c3_parse_never_raises.1 "abc".data,
    c3_parse_never_raises.2 "ab".data 5 (by decide)⟩
